import Mathlib

/-!
Verification development for the WireState statechart compiler.

The JavaScript sources (src/analyzer.js, lib/generator/index.js, the CLI entry
script) are embedded shallowly: JS strings are Lean `String`s (their character
content as `List Char` where character-level work is needed), JS arrays are
Lean lists, thrown errors become `Except`/`Option` results, and `async`
functions become pure functions whose suspension points are explicit
parameters (the import cache, the file system).  Library code that is not part
of the repository (Node's `path`/`fs`, the `Cache` class from src/internal,
`resolveState` from src/ast-nodes, the AST `clone`) is modelled by parameters
or by definitions whose doc comments say what they model.
-/

set_option autoImplicit false

namespace WireState

/-! ## Event-name normalization (analyzer.js, `normalizeEventName`, lines 32-35)

`eventName.split(',').map(e => e.trim()).sort().join(',')` modelled on the
character list of the string. -/

/-- Whitespace as removed by JS `String.prototype.trim` (modelled by Lean's
`Char.isWhitespace`). -/
def isJsWhitespace (c : Char) : Bool := c.isWhitespace

/-- Model of JS `s.split(',')` on the character list of `s`. `''.split(',')`
is `['']`, matching `splitComma [] = [[]]`. -/
def splitComma : List Char → List (List Char)
  | [] => [[]]
  | c :: cs =>
    if c = ',' then [] :: splitComma cs
    else
      match splitComma cs with
      | [] => [[c]]
      | p :: ps => (c :: p) :: ps

/-- Model of JS `parts.join(',')`. -/
def joinComma : List (List Char) → List Char
  | [] => []
  | [p] => p
  | p :: q :: ps => p ++ ',' :: joinComma (q :: ps)

/-- Model of JS `String.prototype.trim`: drop whitespace from both ends. -/
def trimChars (cs : List Char) : List Char :=
  ((cs.dropWhile isJsWhitespace).reverse.dropWhile isJsWhitespace).reverse

/-- JS string comparison `a <= b` (lexicographic on code units), as used by the
default comparator of `Array.prototype.sort`. -/
def lexLe : List Char → List Char → Bool
  | [], _ => true
  | _ :: _, [] => false
  | a :: as, b :: bs => if a < b then true else if b < a then false else lexLe as bs

/-- The ordering relation `Array.prototype.sort()` sorts strings by. -/
def lexR (a b : List Char) : Prop := lexLe a b = true

instance : DecidableRel lexR := fun a b => by unfold lexR; infer_instance

/-- Model of JS `Array.prototype.sort()` on an array of strings: a stable sort
by the default comparator. -/
def sortParts (ps : List (List Char)) : List (List Char) := List.insertionSort lexR ps

/-- Character-level body of `normalizeEventName`: split on commas, trim each
part, sort, rejoin with commas. -/
def normalizeChars (cs : List Char) : List Char :=
  joinComma (sortParts ((splitComma cs).map trimChars))

/-- `normalizeEventName` (analyzer.js lines 32-35):
`eventName.split(',').map(e => e.trim()).sort().join(',')`. -/
def normalizeEventName (s : String) : String :=
  String.mk (normalizeChars s.data)

/-- The inline normalization applied to event protocols (analyzer.js lines
207-209 and 324-326); the source text is the same split/trim/sort/join
pipeline repeated verbatim. -/
def protocolEventKey (s : String) : String :=
  String.mk (joinComma (sortParts ((splitComma s.data).map trimChars)))

/-! ### Properties of the normalization pipeline -/

theorem lexLe_total (a b : List Char) : lexLe a b = true ∨ lexLe b a = true := by
  induction a generalizing b with
  | nil => left; rfl
  | cons x xs ih =>
    cases b with
    | nil => right; rfl
    | cons y ys =>
      by_cases h1 : x < y
      · left; simp [lexLe, h1]
      · by_cases h2 : y < x
        · right; simp [lexLe, h2, h1]
        · cases ih ys with
          | inl h => left; simp [lexLe, h1, h2, h]
          | inr h => right; simp [lexLe, h1, h2, h]

theorem lexLe_trans {a b c : List Char} (h1 : lexLe a b = true)
    (h2 : lexLe b c = true) : lexLe a c = true := by
  induction a generalizing b c with
  | nil => rfl
  | cons x xs ih =>
    cases b with
    | nil => simp [lexLe] at h1
    | cons y ys =>
      cases c with
      | nil => simp [lexLe] at h2
      | cons z zs =>
        simp only [lexLe] at h1 h2 ⊢
        rcases lt_trichotomy x y with hxy | hxy | hxy
        · rcases lt_trichotomy y z with hyz | hyz | hyz
          · simp [lt_trans hxy hyz]
          · subst hyz; simp [hxy]
          · exfalso
            simp [not_lt.2 (le_of_lt hyz), not_lt.2 (le_of_lt hyz), hyz] at h2
        · subst hxy
          rcases lt_trichotomy x z with hxz | hxz | hxz
          · simp [hxz]
          · subst hxz
            simp only [lt_irrefl, if_false] at h1 h2 ⊢
            exact ih h1 h2
          · exfalso
            simp [not_lt.2 (le_of_lt hxz), hxz] at h2
        · exfalso
          simp [not_lt.2 (le_of_lt hxy), hxy] at h1

instance : IsTotal (List Char) lexR := ⟨fun a b => lexLe_total a b⟩

instance : IsTrans (List Char) lexR := ⟨fun _ _ _ => lexLe_trans⟩

theorem splitComma_ne_nil (cs : List Char) : splitComma cs ≠ [] := by
  induction cs with
  | nil => simp [splitComma]
  | cons c cs ih =>
    by_cases h : c = ','
    · simp [splitComma, h]
    · simp only [splitComma, h, if_false]
      cases hs : splitComma cs with
      | nil => simp
      | cons p ps => simp

theorem not_mem_of_mem_splitComma {cs : List Char} {p : List Char}
    (hp : p ∈ splitComma cs) : ',' ∉ p := by
  induction cs generalizing p with
  | nil =>
    simp only [splitComma, List.mem_singleton] at hp
    subst hp; simp
  | cons c cs ih =>
    by_cases h : c = ','
    · simp only [splitComma, h, if_true, List.mem_cons] at hp
      rcases hp with hp | hp
      · subst hp; simp
      · exact ih hp
    · simp only [splitComma, h, if_false] at hp
      cases hs : splitComma cs with
      | nil => exact absurd hs (splitComma_ne_nil cs)
      | cons q qs =>
        rw [hs] at hp
        simp only [List.mem_cons] at hp
        rcases hp with hp | hp
        · subst hp
          intro hmem
          rcases List.mem_cons.1 hmem with hc | hc
          · exact h hc.symm
          · exact ih (hs ▸ List.mem_cons_self q qs) hc
        · exact ih (hs ▸ List.mem_cons_of_mem q hp)

theorem splitComma_of_not_mem {p : List Char} (h : ',' ∉ p) : splitComma p = [p] := by
  induction p with
  | nil => rfl
  | cons c cs ih =>
    have hc : c ≠ ',' := fun hc => h (hc ▸ List.mem_cons_self c cs)
    have hcs : ',' ∉ cs := fun hm => h (List.mem_cons_of_mem c hm)
    simp [splitComma, hc, ih hcs]

theorem splitComma_append {p : List Char} (t : List Char) (h : ',' ∉ p) :
    splitComma (p ++ ',' :: t) = p :: splitComma t := by
  induction p with
  | nil => simp [splitComma]
  | cons c cs ih =>
    have hc : c ≠ ',' := fun hc => h (hc ▸ List.mem_cons_self c cs)
    have hcs : ',' ∉ cs := fun hm => h (List.mem_cons_of_mem c hm)
    have ih' := ih hcs
    simp only [List.cons_append, splitComma, hc, if_false]
    rw [show cs.append (',' :: t) = cs ++ ',' :: t from rfl, ih']

theorem splitComma_joinComma {ps : List (List Char)} (h0 : ps ≠ [])
    (h : ∀ p ∈ ps, ',' ∉ p) : splitComma (joinComma ps) = ps := by
  induction ps with
  | nil => exact absurd rfl h0
  | cons p ps ih =>
    cases ps with
    | nil =>
      simp only [joinComma]
      exact splitComma_of_not_mem (h p (List.mem_cons_self p []))
    | cons q qs =>
      have hp : ',' ∉ p := h p (List.mem_cons_self p _)
      have hrest : ∀ r ∈ q :: qs, ',' ∉ r := fun r hr => h r (List.mem_cons_of_mem p hr)
      simp only [joinComma]
      rw [splitComma_append _ hp, ih (by simp) hrest]

/-- Both ends of a character list are free of whitespace. -/
def trimmedB (cs : List Char) : Bool :=
  (match cs.head? with
    | none => true
    | some c => !isJsWhitespace c) &&
  (match cs.getLast? with
    | none => true
    | some c => !isJsWhitespace c)

theorem dropWhile_eq_self_of_head {α : Type} {p : α → Bool} {l : List α}
    (h : ∀ c, l.head? = some c → p c = false) : l.dropWhile p = l := by
  cases l with
  | nil => rfl
  | cons x xs => simp [List.dropWhile_cons, h x rfl]

theorem head?_dropWhile_false {α : Type} {p : α → Bool} {l : List α} {c : α}
    (h : (l.dropWhile p).head? = some c) : p c = false := by
  induction l with
  | nil => simp [List.dropWhile] at h
  | cons x xs ih =>
    by_cases hx : p x
    · rw [List.dropWhile_cons, if_pos hx] at h
      exact ih h
    · rw [List.dropWhile_cons, if_neg hx] at h
      simp only [List.head?_cons, Option.some.injEq] at h
      subst h
      exact Bool.eq_false_iff.2 hx

theorem trimmedB_trimChars (cs : List Char) : trimmedB (trimChars cs) = true := by
  unfold trimChars trimmedB
  set y := (cs.dropWhile isJsWhitespace).reverse with hy
  set z := y.dropWhile isJsWhitespace with hz
  apply Bool.and_eq_true_iff.2
  constructor
  · -- head of the result is the last of z
    rw [List.head?_reverse]
    cases hlast : z.getLast? with
    | none => rfl
    | some c =>
      -- z is a suffix of y so, being nonempty, shares its last element
      have hzy : z <:+ y := List.dropWhile_suffix _
      obtain ⟨u, hu⟩ := hzy
      have hzne : z ≠ [] := by
        intro hznil
        rw [hznil] at hlast
        simp at hlast
      have h1 : y.getLast? = z.getLast? := by
        rw [← hu]
        exact List.getLast?_append_of_ne_nil u hzne
      have h2 : y.getLast? = (cs.dropWhile isJsWhitespace).head? := by
        rw [hy, List.getLast?_reverse]
      have h3 : (cs.dropWhile isJsWhitespace).head? = some c := by
        rw [← h2, h1, hlast]
      have h4 : isJsWhitespace c = false := head?_dropWhile_false h3
      simp [h4]
  · -- last of the result is the head of z, which dropWhile cleaned
    rw [List.getLast?_reverse]
    cases hhead : z.head? with
    | none => rfl
    | some c =>
      have h4 : isJsWhitespace c = false := head?_dropWhile_false hhead
      simp [h4]

theorem trimChars_eq_self {cs : List Char} (h : trimmedB cs = true) :
    trimChars cs = cs := by
  unfold trimmedB at h
  obtain ⟨h1, h2⟩ := Bool.and_eq_true_iff.1 h
  have hhead : ∀ c, cs.head? = some c → isJsWhitespace c = false := by
    intro c hc
    rw [hc] at h1
    simpa using h1
  have hlast : ∀ c, cs.getLast? = some c → isJsWhitespace c = false := by
    intro c hc
    rw [hc] at h2
    simpa using h2
  unfold trimChars
  rw [dropWhile_eq_self_of_head hhead]
  rw [dropWhile_eq_self_of_head (by
    intro c hc
    rw [List.head?_reverse] at hc
    exact hlast c hc)]
  exact List.reverse_reverse cs

theorem trimChars_idem (cs : List Char) : trimChars (trimChars cs) = trimChars cs :=
  trimChars_eq_self (trimmedB_trimChars cs)

theorem trimChars_sublist (cs : List Char) : (trimChars cs).Sublist cs := by
  unfold trimChars
  have h1 : ((cs.dropWhile isJsWhitespace).reverse.dropWhile isJsWhitespace).Sublist
      (cs.dropWhile isJsWhitespace).reverse := List.dropWhile_sublist _
  have h2 := h1.reverse
  rw [List.reverse_reverse] at h2
  exact h2.trans (List.dropWhile_sublist _)

theorem not_mem_trimChars {cs : List Char} {a : Char} (h : a ∉ cs) :
    a ∉ trimChars cs := fun hm => h ((trimChars_sublist cs).subset hm)

theorem normalizeChars_idem (cs : List Char) :
    normalizeChars (normalizeChars cs) = normalizeChars cs := by
  unfold normalizeChars
  set ts := (splitComma cs).map trimChars with hts
  set qs := sortParts ts with hqs
  have hperm : qs.Perm ts := List.perm_insertionSort lexR ts
  have hqs_ne : qs ≠ [] := by
    intro hnil
    have := hperm.length_eq
    rw [hnil] at this
    simp only [List.length_nil] at this
    have : ts = [] := List.length_eq_zero.1 this.symm
    rw [hts] at this
    exact splitComma_ne_nil cs (List.map_eq_nil_iff.1 this)
  have hq_nocomma : ∀ q ∈ qs, ',' ∉ q := by
    intro q hq
    have hq' : q ∈ ts := hperm.mem_iff.1 hq
    rw [hts] at hq'
    obtain ⟨p, hp, hpq⟩ := List.mem_map.1 hq'
    rw [← hpq]
    exact not_mem_trimChars (not_mem_of_mem_splitComma hp)
  have hq_trimmed : ∀ q ∈ qs, trimChars q = q := by
    intro q hq
    have hq' : q ∈ ts := hperm.mem_iff.1 hq
    rw [hts] at hq'
    obtain ⟨p, hp, hpq⟩ := List.mem_map.1 hq'
    rw [← hpq]
    exact trimChars_idem p
  rw [splitComma_joinComma hqs_ne hq_nocomma]
  have hmap : qs.map trimChars = qs := by
    calc qs.map trimChars = qs.map id :=
          List.map_congr_left (by intro a ha; simpa using hq_trimmed a ha)
      _ = qs := qs.map_id
  rw [hmap]
  have hsorted : List.Sorted lexR qs := by
    rw [hqs]
    exact List.sorted_insertionSort lexR ts
  unfold sortParts
  rw [hsorted.insertionSort_eq]

theorem normalizeEventName_idem (s : String) :
    normalizeEventName (normalizeEventName s) = normalizeEventName s := by
  unfold normalizeEventName
  exact congrArg String.mk (normalizeChars_idem s.data)

/-! ## Semantic errors and the analyzer's duplicate-detection loop

`SemanticError` is the error class of analyzer.js lines 23-30.  The analyzer
repeats one loop shape four times (machine IDs in a scope, state IDs,
transition events, event protocols; analyzer.js lines 109-124, 169-183,
186-204, 207-225, 286-342): iterate `new Set(keys)` in insertion order and,
when `indexOf` and `lastIndexOf` of a key differ, throw an error built from
`array.find(...)`, the FIRST element carrying that key.  `dupCheck` embeds
that loop once, generically in the key and error constructor. -/

/-- Error with a source location, as thrown by the analyzer
(analyzer.js lines 23-30). -/
structure SemanticError where
  message : String
  fileName : String
  line : Nat
  column : Nat
deriving DecidableEq

/-- Model of JS `Array.prototype.indexOf`: first index of `a`, `-1` when
absent. -/
def jsIndexOf {α : Type} [DecidableEq α] : List α → α → Int
  | [], _ => -1
  | x :: xs, a =>
    if x = a then 0
    else
      let r := jsIndexOf xs a
      if r < 0 then -1 else r + 1

/-- Model of JS `Array.prototype.lastIndexOf`: last index of `a`, `-1` when
absent. -/
def jsLastIndexOf {α : Type} [DecidableEq α] (l : List α) (a : α) : Int :=
  let r := jsIndexOf l.reverse a
  if r < 0 then -1 else (l.length : Int) - 1 - r

/-- Model of `new Set(xs)` iterated with `for ... of`: distinct elements in
insertion order (first occurrences). -/
def dedupFirst {α : Type} [DecidableEq α] : List α → List α
  | [] => []
  | x :: xs => x :: (dedupFirst xs).filter (fun y => decide (y ≠ x))

/-- The analyzer's duplicate-detection loop, generic in the key (machine ID,
state ID or normalized event) and in the error built from the offending
element. -/
def dupCheck {α κ : Type} [DecidableEq κ] (key : α → κ) (mkErr : α → SemanticError)
    (xs : List α) : Option SemanticError :=
  let ids := xs.map key
  (dedupFirst ids).findSome? fun id =>
    if jsIndexOf ids id = jsLastIndexOf ids id then none
    else (xs.find? fun x => decide (key x = id)).map mkErr

/-! ### Characterizing the duplicate check -/

section DupCheck

variable {α : Type} {κ : Type} [DecidableEq κ]

theorem jsIndexOf_of_not_mem {a : κ} {l : List κ} (h : a ∉ l) :
    jsIndexOf l a = -1 := by
  induction l with
  | nil => rfl
  | cons x xs ih =>
    have hx : x ≠ a := fun hx => h (hx ▸ List.mem_cons_self x xs)
    have hxs : a ∉ xs := fun hm => h (List.mem_cons_of_mem x hm)
    simp [jsIndexOf, hx, ih hxs]

theorem jsIndexOf_nonneg {a : κ} {l : List κ} (h : a ∈ l) :
    0 ≤ jsIndexOf l a := by
  induction l with
  | nil => simp at h
  | cons x xs ih =>
    by_cases hx : x = a
    · simp [jsIndexOf, hx]
    · have hxs : a ∈ xs := by
        rcases List.mem_cons.1 h with h1 | h1
        · exact absurd h1.symm hx
        · exact h1
      have h0 := ih hxs
      simp only [jsIndexOf, hx, if_false]
      have h1 : ¬ jsIndexOf xs a < 0 := not_lt.2 h0
      simp only [h1, if_false]
      omega

theorem jsIndexOf_lt_length {a : κ} {l : List κ} (h : a ∈ l) :
    jsIndexOf l a < (l.length : Int) := by
  induction l with
  | nil => simp at h
  | cons x xs ih =>
    by_cases hx : x = a
    · simp [jsIndexOf, hx]
    · have hxs : a ∈ xs := by
        rcases List.mem_cons.1 h with h1 | h1
        · exact absurd h1.symm hx
        · exact h1
      have h0 := jsIndexOf_nonneg hxs
      have h1 := ih hxs
      simp only [jsIndexOf, hx, if_false, not_lt.2 h0, if_false, List.length_cons]
      push_cast
      omega

theorem jsIndexOf_cons_ne_mem {a x : κ} {xs : List κ} (hx : x ≠ a)
    (h : a ∈ xs) : jsIndexOf (x :: xs) a = jsIndexOf xs a + 1 := by
  have h0 := jsIndexOf_nonneg h
  simp [jsIndexOf, hx, not_lt.2 h0]

theorem jsIndexOf_append_left {a : κ} {u : List κ} (v : List κ) (h : a ∈ u) :
    jsIndexOf (u ++ v) a = jsIndexOf u a := by
  induction u with
  | nil => simp at h
  | cons x u ih =>
    by_cases hx : x = a
    · simp [jsIndexOf, hx]
    · have hu : a ∈ u := by
        rcases List.mem_cons.1 h with h1 | h1
        · exact absurd h1.symm hx
        · exact h1
      have h1 : a ∈ u ++ v := List.mem_append_left v hu
      rw [List.cons_append, jsIndexOf_cons_ne_mem hx h1, jsIndexOf_cons_ne_mem hx hu,
        ih hu]

theorem jsIndexOf_append_of_not_mem {a : κ} {u v : List κ} (hu : a ∉ u)
    (hv : a ∈ v) : jsIndexOf (u ++ v) a = jsIndexOf v a + u.length := by
  induction u with
  | nil => simp
  | cons x u ih =>
    have hx : x ≠ a := fun hh => hu (hh ▸ List.mem_cons_self x u)
    have hu' : a ∉ u := fun hm => hu (List.mem_cons_of_mem x hm)
    have hmem : a ∈ u ++ v := List.mem_append_right u hv
    rw [List.cons_append, jsIndexOf_cons_ne_mem hx hmem, ih hu', List.length_cons]
    push_cast
    ring

theorem jsLastIndexOf_nonneg {a : κ} {l : List κ} (h : a ∈ l) :
    0 ≤ jsLastIndexOf l a := by
  have hrev : a ∈ l.reverse := List.mem_reverse.2 h
  have h0 := jsIndexOf_nonneg hrev
  have h1 := jsIndexOf_lt_length hrev
  rw [List.length_reverse] at h1
  simp only [jsLastIndexOf, not_lt.2 h0, if_false]
  omega

theorem jsLastIndexOf_cons_mem {a x : κ} {xs : List κ} (h : a ∈ xs) :
    jsLastIndexOf (x :: xs) a = jsLastIndexOf xs a + 1 := by
  have hrev : a ∈ xs.reverse := List.mem_reverse.2 h
  have h0 := jsIndexOf_nonneg hrev
  have h1 := jsIndexOf_lt_length hrev
  rw [List.length_reverse] at h1
  have hidx : jsIndexOf ((x :: xs).reverse) a = jsIndexOf xs.reverse a := by
    rw [List.reverse_cons]
    exact jsIndexOf_append_left [x] hrev
  simp only [jsLastIndexOf, hidx, not_lt.2 h0, if_false, List.length_cons]
  push_cast
  omega

theorem jsLastIndexOf_cons_self_of_not_mem {a : κ} {xs : List κ} (h : a ∉ xs) :
    jsLastIndexOf (a :: xs) a = 0 := by
  have hrev : a ∉ xs.reverse := fun hm => h (List.mem_reverse.1 hm)
  have hidx : jsIndexOf ((a :: xs).reverse) a = jsIndexOf [a] a + xs.reverse.length := by
    rw [List.reverse_cons]
    exact jsIndexOf_append_of_not_mem hrev (List.mem_singleton.2 rfl)
  have hsingle : jsIndexOf [a] a = 0 := by simp [jsIndexOf]
  rw [hsingle] at hidx
  simp only [jsLastIndexOf, hidx, List.length_reverse, List.length_cons]
  have h0 : ¬ ((0 : Int) + xs.length < 0) := by omega
  simp only [h0, if_false]
  push_cast
  omega

theorem jsIndexOf_eq_lastIndexOf_iff {a : κ} {l : List κ} (h : a ∈ l) :
    (jsIndexOf l a = jsLastIndexOf l a) ↔ l.count a = 1 := by
  induction l with
  | nil => simp at h
  | cons x xs ih =>
    by_cases hx : x = a
    · subst hx
      by_cases hmem : x ∈ xs
      · have hidx : jsIndexOf (x :: xs) x = 0 := by simp [jsIndexOf]
        have hlast := jsLastIndexOf_cons_mem (x := x) hmem
        have hpos := jsLastIndexOf_nonneg hmem
        have hcount : 0 < xs.count x := by
          rcases Nat.eq_zero_or_pos (xs.count x) with h0 | h0
          · exact absurd (List.count_eq_zero.1 h0) (by simpa using hmem)
          · exact h0
        constructor
        · intro heq
          rw [hidx, hlast] at heq
          omega
        · intro heq
          rw [List.count_cons_self] at heq
          omega
      · have hidx : jsIndexOf (x :: xs) x = 0 := by simp [jsIndexOf]
        have hlast := jsLastIndexOf_cons_self_of_not_mem hmem
        have hcount : xs.count x = 0 := List.count_eq_zero.2 (by simpa using hmem)
        rw [hidx, hlast, List.count_cons_self, hcount]
        simp
    · have hmem : a ∈ xs := by
        rcases List.mem_cons.1 h with h1 | h1
        · exact absurd h1.symm hx
        · exact h1
      have hidx := jsIndexOf_cons_ne_mem hx hmem
      have hlast := jsLastIndexOf_cons_mem (x := x) hmem
      have hcount : (x :: xs).count a = xs.count a := by
        rw [List.count_cons]
        simp [hx]
      rw [hidx, hlast, hcount, ← ih hmem]
      omega

theorem dedupFirst_subset {l : List κ} {y : κ} (h : y ∈ dedupFirst l) : y ∈ l := by
  induction l with
  | nil => simpa [dedupFirst] using h
  | cons x xs ih =>
    simp only [dedupFirst, List.mem_cons] at h
    rcases h with h | h
    · exact h ▸ List.mem_cons_self x xs
    · exact List.mem_cons_of_mem x (ih (List.mem_of_mem_filter h))

theorem findSome?_ext {β : Type} {f g : α → Option β} {l : List α}
    (h : ∀ a ∈ l, f a = g a) : l.findSome? f = l.findSome? g := by
  induction l with
  | nil => rfl
  | cons x xs ih =>
    rw [List.findSome?_cons, List.findSome?_cons, h x (List.mem_cons_self x xs),
      ih fun a ha => h a (List.mem_cons_of_mem x ha)]

theorem find?_ext {p q : α → Bool} {l : List α} (h : ∀ a ∈ l, p a = q a) :
    l.find? p = l.find? q := by
  induction l with
  | nil => rfl
  | cons x xs ih =>
    rw [List.find?_cons, List.find?_cons, h x (List.mem_cons_self x xs),
      ih fun a ha => h a (List.mem_cons_of_mem x ha)]

theorem findSome?_cons_some {β : Type} {f : α → Option β} {x : α} {l : List α}
    {b : β} (h : f x = some b) : (x :: l).findSome? f = some b := by
  rw [List.findSome?_cons, h]

theorem findSome?_cons_none {β : Type} {f : α → Option β} {x : α} {l : List α}
    (h : f x = none) : (x :: l).findSome? f = l.findSome? f := by
  rw [List.findSome?_cons, h]

theorem count_pos_of_mem {a : κ} {l : List κ} (h : a ∈ l) : 0 < l.count a := by
  rcases Nat.eq_zero_or_pos (l.count a) with h0 | h0
  · exact absurd (List.count_eq_zero.1 h0) (by simpa using h)
  · exact h0

/-- When the head's key occurs again further down, the loop reports the head. -/
theorem dupCheck_cons_dup {key : α → κ} {mkErr : α → SemanticError} {x : α}
    {xs : List α} (hdup : key x ∈ xs.map key) :
    dupCheck key mkErr (x :: xs) = some (mkErr x) := by
  have hk : key x ∈ key x :: xs.map key := List.mem_cons_self _ _
  have hcount : 0 < (xs.map key).count (key x) := count_pos_of_mem hdup
  have hne : ¬ (jsIndexOf (key x :: xs.map key) (key x)
      = jsLastIndexOf (key x :: xs.map key) (key x)) := by
    rw [jsIndexOf_eq_lastIndexOf_iff hk, List.count_cons_self]
    omega
  have hfind : ((x :: xs).find? fun y => decide (key y = key x)) = some x := by
    rw [List.find?_cons]
    simp
  unfold dupCheck
  simp only [List.map_cons, dedupFirst]
  refine findSome?_cons_some ?_
  rw [if_neg hne, hfind]
  rfl

/-- When the head's key is unique, the loop's verdict is that of the tail. -/
theorem dupCheck_cons_nodup {key : α → κ} {mkErr : α → SemanticError} {x : α}
    {xs : List α} (hdup : key x ∉ xs.map key) :
    dupCheck key mkErr (x :: xs) = dupCheck key mkErr xs := by
  have hk : key x ∈ key x :: xs.map key := List.mem_cons_self _ _
  have hcount0 : (xs.map key).count (key x) = 0 :=
    List.count_eq_zero.2 (by simpa using hdup)
  have heq : jsIndexOf (key x :: xs.map key) (key x)
      = jsLastIndexOf (key x :: xs.map key) (key x) := by
    rw [jsIndexOf_eq_lastIndexOf_iff hk, List.count_cons_self, hcount0]
  have hfilter : ((dedupFirst (xs.map key)).filter
      fun y => decide (y ≠ key x)) = dedupFirst (xs.map key) := by
    apply List.filter_eq_self.2
    intro y hy
    have hymem : y ∈ xs.map key := dedupFirst_subset hy
    simp only [decide_eq_true_eq]
    intro hyx
    exact hdup (hyx ▸ hymem)
  have hstep : ∀ id ∈ dedupFirst (xs.map key),
      (if jsIndexOf (key x :: xs.map key) id = jsLastIndexOf (key x :: xs.map key) id
        then none
        else ((x :: xs).find? fun y => decide (key y = id)).map mkErr)
      = (if jsIndexOf (xs.map key) id = jsLastIndexOf (xs.map key) id
        then none
        else (xs.find? fun y => decide (key y = id)).map mkErr) := by
    intro id hid
    have hidmem : id ∈ xs.map key := dedupFirst_subset hid
    have hidne : key x ≠ id := fun hh => hdup (hh ▸ hidmem)
    have hidx := jsIndexOf_cons_ne_mem hidne hidmem
    have hlast := jsLastIndexOf_cons_mem (x := key x) hidmem
    have hcond : (jsIndexOf (key x :: xs.map key) id
        = jsLastIndexOf (key x :: xs.map key) id)
        ↔ (jsIndexOf (xs.map key) id = jsLastIndexOf (xs.map key) id) := by
      rw [hidx, hlast]
      omega
    have hfind2 : ((x :: xs).find? fun y => decide (key y = id))
        = xs.find? fun y => decide (key y = id) := by
      rw [List.find?_cons]
      simp [hidne]
    by_cases hc : jsIndexOf (xs.map key) id = jsLastIndexOf (xs.map key) id
    · rw [if_pos (hcond.2 hc), if_pos hc]
    · rw [if_neg (fun hh => hc (hcond.1 hh)), if_neg hc, hfind2]
  unfold dupCheck
  simp only [List.map_cons, dedupFirst]
  rw [findSome?_cons_none (by rw [if_pos heq])]
  rw [hfilter]
  exact findSome?_ext hstep

/-- The duplicate loop reports exactly the FIRST element of the array whose
key occurs at least twice (and reports nothing when all keys are unique). -/
theorem dupCheck_eq_find (key : α → κ) (mkErr : α → SemanticError) (xs : List α) :
    dupCheck key mkErr xs =
      (xs.find? fun x => decide (2 ≤ (xs.map key).count (key x))).map mkErr := by
  induction xs with
  | nil => rfl
  | cons x xs ih =>
    by_cases hdup : key x ∈ xs.map key
    · have hpred : (decide (2 ≤ ((x :: xs).map key).count (key x))) = true := by
        have hcount : 0 < (xs.map key).count (key x) := count_pos_of_mem hdup
        rw [List.map_cons, List.count_cons_self]
        simp only [decide_eq_true_eq]
        omega
      rw [dupCheck_cons_dup hdup, List.find?_cons, hpred]
      rfl
    · have hcount0 : (xs.map key).count (key x) = 0 :=
        List.count_eq_zero.2 (by simpa using hdup)
      have hpredx : (decide (2 ≤ ((x :: xs).map key).count (key x))) = false := by
        rw [List.map_cons, List.count_cons_self, hcount0]
        simp
      have hpreds : ∀ y ∈ xs,
          (decide (2 ≤ ((x :: xs).map key).count (key y)))
          = decide (2 ≤ (xs.map key).count (key y)) := by
        intro y hy
        have hcc : ((x :: xs).map key).count (key y) = (xs.map key).count (key y) := by
          rw [List.map_cons, List.count_cons]
          have hne : ¬ (key x = key y) := by
            intro hh
            exact hdup (hh ▸ List.mem_map_of_mem key hy)
          simp [hne]
        rw [hcc]
      rw [dupCheck_cons_nodup hdup, ih, List.find?_cons, hpredx, find?_ext hpreds]

end DupCheck

/-! ## The AST (src/ast-nodes.js, as consumed by the analyzer)

Nodes carry the fields the analyzer reads.  Back-references (`parent`,
`scopeNode`) are modelled by passing the enclosing scope's data down
explicitly. -/

/-- Transition `event -> target` with its source location. -/
structure TransitionNode where
  event : String
  target : String
  line : Nat
  column : Nat
deriving DecidableEq

/-- Declared event protocol. -/
structure EventProtocolNode where
  eventName : String
  line : Nat
  column : Nat
deriving DecidableEq

/-- State-level `@use Machine` directive. -/
structure UseDirectiveNode where
  machineId : String
  line : Nat
  column : Nat
deriving DecidableEq

/-- One `@include "file"`; `file` is the path as written until the analyzer
overwrites `_file` with the computed logical path. -/
structure ImportNode where
  file : String
  line : Nat
  column : Nat
deriving DecidableEq

/-- State tree.  `stateType` is one of atomic, compound, parallel, transient,
final; `states` are the children in document order. -/
inductive StateNode : Type where
  | mk (id : String) (stateType : String) (initial : Bool) (line : Nat)
      (column : Nat) (transitions : List TransitionNode)
      (eventProtocols : List EventProtocolNode)
      (useDirective : Option UseDirectiveNode) (states : List StateNode)

def StateNode.id : StateNode → String
  | .mk v _ _ _ _ _ _ _ _ => v

def StateNode.stateType : StateNode → String
  | .mk _ v _ _ _ _ _ _ _ => v

def StateNode.initial : StateNode → Bool
  | .mk _ _ v _ _ _ _ _ _ => v

def StateNode.line : StateNode → Nat
  | .mk _ _ _ v _ _ _ _ _ => v

def StateNode.column : StateNode → Nat
  | .mk _ _ _ _ v _ _ _ _ => v

def StateNode.transitions : StateNode → List TransitionNode
  | .mk _ _ _ _ _ v _ _ _ => v

def StateNode.eventProtocols : StateNode → List EventProtocolNode
  | .mk _ _ _ _ _ _ v _ _ => v

def StateNode.useDirective : StateNode → Option UseDirectiveNode
  | .mk _ _ _ _ _ _ _ v _ => v

def StateNode.states : StateNode → List StateNode
  | .mk _ _ _ _ _ _ _ _ v => v

/-- Assignment `stateNode.initial = b`. -/
def StateNode.setInitial : StateNode → Bool → StateNode
  | .mk i st _ ln col tr eps ud sts, b => .mk i st b ln col tr eps ud sts

/-- Machine: a named statechart inside a scope. -/
structure MachineNode where
  id : String
  line : Nat
  column : Nat
  transitions : List TransitionNode
  eventProtocols : List EventProtocolNode
  states : List StateNode

/-- Scope: the AST root for one source file. -/
structure ScopeNode where
  fileName : String
  imports : List ImportNode
  machines : List MachineNode

/-- View of an analyzed scope as read back from the import cache by `@use`
resolution: the IDs of the machines it declares and the files it imports
(that list records the cross-file graph, used to state transitivity). -/
structure ScopeRef where
  machines : List String
  imports : List String
deriving DecidableEq

/-- The analyzer's external collaborators, passed as parameters: the
transition-target resolver `resolveState` (src/ast-nodes.js, not under src/),
the import cache's `get` as awaited by `@use` resolution (the `Cache` class of
src/internal is not under src/; modelled from the spec, §4.6, as a key-to-value
map), and Node's `Path.join`. -/
structure AnalyzerContext where
  resolveOk : TransitionNode → Bool
  cacheGet : String → Option ScopeRef
  pathJoin : String → String → String

/-- Analyzer failure: a thrown `SemanticError`, or the JS failure of awaiting
`cache.get(file)` for a key that was never registered. -/
inductive AError where
  | sem (e : SemanticError)
  | missingCacheKey (file : String)
deriving DecidableEq

/-! ## Error constructors (the `throw new SemanticError(...)` sites) -/

/-- analyzer.js lines 118-122. -/
def machineDupErr (fileName : String) (m : MachineNode) : SemanticError :=
  ⟨"Duplicate machine\n  Machine ID: \"" ++ m.id ++ "\"", fileName, m.line, m.column⟩

/-- analyzer.js lines 177-181 and 294-298. -/
def stateDupErr (fileName : String) (c : StateNode) : SemanticError :=
  ⟨"Duplicate state\n  State ID: \"" ++ c.id ++ "\"", fileName, c.line, c.column⟩

/-- analyzer.js lines 198-202 and 315-319. -/
def transitionDupErr (fileName : String) (t : TransitionNode) : SemanticError :=
  ⟨"Duplicate transition\n  Transition Event: \"" ++ t.event ++ "\"", fileName,
    t.line, t.column⟩

/-- analyzer.js lines 219-223 and 336-340. -/
def protocolDupErr (fileName : String) (p : EventProtocolNode) : SemanticError :=
  ⟨"Duplicate event protocol\n  Event Protocol: \"" ++ p.eventName ++ "\"",
    fileName, p.line, p.column⟩

/-- analyzer.js lines 231-235 and 348-352. -/
def unresolvedTargetErr (fileName : String) (t : TransitionNode) : SemanticError :=
  ⟨"Transition target cannot be resolved\n  Transition Target: " ++ t.target,
    fileName, t.line, t.column⟩

/-- analyzer.js lines 273-277 (located at the FIRST child state; the stray
closing quote after the ID is in the source). -/
def transientChildrenErr (fileName : String) (s c : StateNode) : SemanticError :=
  ⟨"Transient states cannot have child states\n  State ID: " ++ s.id ++ "\"",
    fileName, c.line, c.column⟩

/-- analyzer.js lines 242-246. -/
def machineInitialErr (fileName : String) (m : MachineNode) (c : StateNode) :
    SemanticError :=
  ⟨"Only one child state can be marked as initial\n  Machine ID: \"" ++ m.id ++ "\"",
    fileName, c.line, c.column⟩

/-- analyzer.js lines 359-363. -/
def stateInitialErr (fileName : String) (s c : StateNode) : SemanticError :=
  ⟨"Only one child state can be marked as initial\n  State ID: \"" ++ s.id ++ "\"",
    fileName, c.line, c.column⟩

/-! ## Per-node checks -/

/-- analyzer.js lines 272-278: transient states cannot have child states
(error at the first child). -/
def transientCheck (fileName : String) (s : StateNode) : Option SemanticError :=
  if s.stateType = "transient" ∧ 0 < s.states.length then
    s.states.head?.map (transientChildrenErr fileName s)
  else none

/-- analyzer.js lines 227-237 and 344-354: `forEach` raising at the first
transition whose target `resolveState` cannot resolve. -/
def resolveCheck (resolveOk : TransitionNode → Bool) (fileName : String)
    (trans : List TransitionNode) : Option SemanticError :=
  (trans.find? fun t => !resolveOk t).map (unresolvedTargetErr fileName)

/-- analyzer.js lines 239-247 and 356-364: more than one initial child raises
at `states.filter(initial)[1]`, the SECOND initial child. -/
def initialCheck (mkErr : StateNode → SemanticError) (states : List StateNode) :
    Option SemanticError :=
  if 1 < (states.filter fun c => c.initial).length then
    ((states.filter fun c => c.initial).get? 1).map mkErr
  else none

/-- analyzer.js lines 249-252 and 366-369: when children exist and none is
initial, mark the first child initial. -/
def completeInitial (states : List StateNode) : List StateNode :=
  if states.length ≠ 0 ∧ ¬ states.any (fun c => c.initial) then
    match states with
    | [] => []
    | c :: rest => c.setInitial true :: rest
  else states

/-- The throw-sequence of `analyzeStateNode` before recursion (analyzer.js
lines 270-369), first error wins.  The `atomic`-to-`compound` rewrite, which
sits between the transient check and the duplicate checks in the source, does
not affect any later check and is applied separately. -/
def stateNodePrecheck (resolveOk : TransitionNode → Bool) (fileName : String)
    (s : StateNode) : Option SemanticError :=
  (transientCheck fileName s).orElse fun _ =>
  (dupCheck StateNode.id (stateDupErr fileName) s.states).orElse fun _ =>
  (dupCheck (fun t => normalizeEventName t.event) (transitionDupErr fileName)
    s.transitions).orElse fun _ =>
  (dupCheck (fun p => protocolEventKey p.eventName) (protocolDupErr fileName)
    s.eventProtocols).orElse fun _ =>
  (resolveCheck resolveOk fileName s.transitions).orElse fun _ =>
  initialCheck (stateInitialErr fileName s) s.states

/-- The throw-sequence of `analyzeMachineNode` before recursion (analyzer.js
lines 167-252), first error wins. -/
def machineNodePrecheck (resolveOk : TransitionNode → Bool) (fileName : String)
    (m : MachineNode) : Option SemanticError :=
  (dupCheck StateNode.id (stateDupErr fileName) m.states).orElse fun _ =>
  (dupCheck (fun t => normalizeEventName t.event) (transitionDupErr fileName)
    m.transitions).orElse fun _ =>
  (dupCheck (fun p => protocolEventKey p.eventName) (protocolDupErr fileName)
    m.eventProtocols).orElse fun _ =>
  (resolveCheck resolveOk fileName m.transitions).orElse fun _ =>
  initialCheck (machineInitialErr fileName m) m.states

/-- The `await Promise.all(scopeNode.imports.map(i => cache.get(i.file)))`
of `analyzeUseDirectiveNode` (analyzer.js lines 399-401): fetch every
directly imported scope from the cache, failing on a never-registered key. -/
def getImportedScopes (cacheGet : String → Option ScopeRef) :
    List String → Except AError (List ScopeRef)
  | [] => .ok []
  | f :: rest =>
    match cacheGet f with
    | none => .error (.missingCacheKey f)
    | some sc =>
      match getImportedScopes cacheGet rest with
      | .error e => .error e
      | .ok scs => .ok (sc :: scs)

/-- `analyzeUseDirectiveNode` (analyzer.js lines 390-422): look for the
machine in the state's own scope, then in each DIRECTLY imported scope as
awaited from the cache; raise `SemanticError` when neither has it. -/
def analyzeUseDirectiveNode (ctx : AnalyzerContext) (fileName : String)
    (scopeMachineIds scopeImportFiles : List String) :
    Option UseDirectiveNode → Except AError (Option UseDirectiveNode)
  | none => .ok none
  | some ud =>
    match scopeMachineIds.find? fun mid => decide (mid = ud.machineId) with
    | some _ => .ok (some ud)
    | none =>
      match getImportedScopes ctx.cacheGet scopeImportFiles with
      | .error e => .error e
      | .ok importedScopes =>
        match importedScopes.findSome? (fun sc =>
            sc.machines.find? fun mid => decide (mid = ud.machineId)) with
        | some _ => .ok (some ud)
        | none =>
          .error (.sem ⟨"Machine not found\n  Machine ID: " ++ ud.machineId,
            fileName, ud.line, ud.column⟩)

theorem sizeOf_bool (b : Bool) : sizeOf b = 1 := by cases b <;> rfl

theorem sizeOf_setInitial (s : StateNode) (b : Bool) :
    sizeOf (s.setInitial b) = sizeOf s := by
  cases s with
  | mk i st ini ln col tr eps ud sts =>
    simp [StateNode.setInitial, sizeOf_bool]

theorem sizeOf_completeInitial (sts : List StateNode) :
    sizeOf (completeInitial sts) = sizeOf sts := by
  unfold completeInitial
  split
  · cases sts with
    | nil => rfl
    | cons c rest => simp [sizeOf_setInitial]
  · rfl

mutual

/-- `analyzeStateNode` (analyzer.js lines 270-382): run the checks, rewrite
`atomic` with children to `compound`, default the initial child, then analyze
the children and the `@use` directive (each `await` propagates the first
failure). -/
def analyzeStateNode (ctx : AnalyzerContext) (fileName : String)
    (scopeMachineIds scopeImportFiles : List String) :
    StateNode → Except AError StateNode
  | .mk i st ini ln col tr eps ud sts =>
    match stateNodePrecheck ctx.resolveOk fileName
        (.mk i st ini ln col tr eps ud sts) with
    | some e => .error (.sem e)
    | none =>
      match analyzeStateList ctx fileName scopeMachineIds scopeImportFiles
          (completeInitial sts) with
      | .error e => .error e
      | .ok sts2 =>
        match analyzeUseDirectiveNode ctx fileName scopeMachineIds
            scopeImportFiles ud with
        | .error e => .error e
        | .ok ud2 =>
          .ok (.mk i (if st = "atomic" ∧ 0 < sts.length then "compound" else st)
            ini ln col tr eps ud2 sts2)
termination_by s => sizeOf s
decreasing_by
  simp_wf
  rw [sizeOf_completeInitial]
  omega

/-- The `Promise.all(states.map(analyzeStateNode))` recursions (analyzer.js
lines 255-259 and 372-376) in document order. -/
def analyzeStateList (ctx : AnalyzerContext) (fileName : String)
    (scopeMachineIds scopeImportFiles : List String) :
    List StateNode → Except AError (List StateNode)
  | [] => .ok []
  | s :: rest =>
    match analyzeStateNode ctx fileName scopeMachineIds scopeImportFiles s with
    | .error e => .error e
    | .ok s2 =>
      match analyzeStateList ctx fileName scopeMachineIds scopeImportFiles rest with
      | .error e => .error e
      | .ok rest2 => .ok (s2 :: rest2)
termination_by l => sizeOf l
decreasing_by
  all_goals simp_wf
  all_goals omega

end

/-- `analyzeMachineNode` (analyzer.js lines 167-262). -/
def analyzeMachineNode (ctx : AnalyzerContext) (fileName : String)
    (scopeMachineIds scopeImportFiles : List String) (m : MachineNode) :
    Except AError MachineNode :=
  match machineNodePrecheck ctx.resolveOk fileName m with
  | some e => .error (.sem e)
  | none =>
    match analyzeStateList ctx fileName scopeMachineIds scopeImportFiles
        (completeInitial m.states) with
    | .error e => .error e
    | .ok sts2 => .ok { m with states := sts2 }

/-- Model of JS `String.prototype.startsWith`. -/
def jsStartsWith (s pre : String) : Bool := pre.data.isPrefixOf s.data

/-- The logical file computed by `analyzeImportNode` (analyzer.js lines
150-152): an import written `./...` or `.\...` is joined onto the parent
scope's `fileName`; any other path is kept as written. -/
def resolveImportFilePath (pathJoin : String → String → String)
    (parentFileName file : String) : String :=
  if jsStartsWith file "./" ∨ jsStartsWith file ".\\" then
    pathJoin parentFileName file
  else file

/-- The `Promise.all(machines.map(analyzeMachineNode))` recursion
(analyzer.js lines 134-138) in document order. -/
def analyzeMachineList (ctx : AnalyzerContext) (fileName : String)
    (scopeMachineIds scopeImportFiles : List String) :
    List MachineNode → Except AError (List MachineNode)
  | [] => .ok []
  | m :: rest =>
    match analyzeMachineNode ctx fileName scopeMachineIds scopeImportFiles m with
    | .error e => .error e
    | .ok m2 =>
      match analyzeMachineList ctx fileName scopeMachineIds scopeImportFiles rest with
      | .error e => .error e
      | .ok rest2 => .ok (m2 :: rest2)

/-- `analyzeScopeNode` (analyzer.js lines 108-141): machine-ID uniqueness
first, then import handling (each import's `_file` is overwritten with the
computed logical path; the cache registration it triggers is
`requireWireStateFile`, modelled separately below), then every machine in
document order. -/
def analyzeScopeNode (ctx : AnalyzerContext) (scope : ScopeNode) :
    Except AError ScopeNode :=
  match dupCheck MachineNode.id (machineDupErr scope.fileName) scope.machines with
  | some e => .error (.sem e)
  | none =>
    match analyzeMachineList ctx scope.fileName
        (scope.machines.map MachineNode.id)
        ((scope.imports.map fun imp =>
          { imp with
            file := resolveImportFilePath ctx.pathJoin scope.fileName imp.file
          }).map ImportNode.file) scope.machines with
    | .error e => .error e
    | .ok machines2 =>
      .ok { scope with
        imports := scope.imports.map fun imp =>
          { imp with
            file := resolveImportFilePath ctx.pathJoin scope.fileName imp.file },
        machines := machines2 }

/-- Modelled from the spec: `ScopeNode.prototype.clone` (src/ast-nodes.js is
not under src/) produces a deep copy, structurally equal to the original; in a
pure embedding the copy is the value itself. -/
def ScopeNode.clone (s : ScopeNode) : ScopeNode := s

/-- A JS value passed to `analyze`: a `ScopeNode` instance, or anything else
(for which `instanceof ScopeNode` is false). -/
inductive JsValue where
  | scopeNode (s : ScopeNode)
  | otherValue

/-- Result of calling a JS function that may throw synchronously before any
promise exists, or return a promise. -/
inductive SyncOrPromise (ε α : Type) where
  | syncThrow (message : String)
  | promise (result : Except ε α)

/-- `analyze` (analyzer.js lines 44-50): a non-`ScopeNode` argument throws
synchronously (the function is not `async`, so no rejected promise is
created); a `ScopeNode` is cloned and the clone is analyzed. -/
def analyze (ctx : AnalyzerContext) (arg : JsValue) : SyncOrPromise AError ScopeNode :=
  match arg with
  | .scopeNode s => .promise (analyzeScopeNode ctx s.clone)
  | .otherValue => .syncThrow "Can only analyzie ScopeNode instances"


/-! ## Source reading and the import cache (analyzer.js `requireWireStateFile`) -/

/-- What `fs.stat` reports for a path: a regular file, something else that
exists, an ENOENT failure, or another I/O failure. -/
inductive StatResult where
  | file
  | notFile
  | enoent
  | ioError (message : String)
deriving DecidableEq

/-- Errors escaping `requireWireStateFile`'s path probing: the ENOENT-coded
"WireState file not found" error, or an I/O error surfaced unchanged. -/
inductive ReqError where
  | notFound (wireStateFile : String)
  | io (message : String)
deriving DecidableEq

/-- One stat probe (analyzer.js lines 64-72): `stats.isFile()` when stat
succeeds, `false` when it fails with code ENOENT, rethrow anything else. -/
def statCheck (fs : String → StatResult) (fileName : String) : Except String Bool :=
  match fs fileName with
  | .file => .ok true
  | .notFile => .ok false
  | .enoent => .ok false
  | .ioError e => .error e

/-- Candidate file names (analyzer.js lines 60-62): the search list defaults
to `['.']`, then each directory is joined with the requested file. -/
def candidateFileNames (pathJoin : String → String → String)
    (dirs : List String) (wireStateFile : String) : List String :=
  (if dirs = [] then ["."] else dirs).map fun d => pathJoin d wireStateFile

/-- The `Promise.all` of stat probes (analyzer.js lines 63-73); a rejected
probe rejects the whole batch (modelled as the first failing probe in list
order). -/
def probeAll (fs : String → StatResult) : List String → Except String (List Bool)
  | [] => .ok []
  | n :: rest =>
    match statCheck fs n with
    | .error e => .error e
    | .ok b =>
      match probeAll fs rest with
      | .error e => .error e
      | .ok bs => .ok (b :: bs)

/-- The path-probing part of `requireWireStateFile` (analyzer.js lines
59-81): stat every candidate, pick the first regular file, and throw the
ENOENT-coded error when there is none (`fileNames[-1]` is `undefined`). -/
def requireWireStateFileResolve (pathJoin : String → String → String)
    (fs : String → StatResult) (dirs : List String) (wireStateFile : String) :
    Except ReqError String :=
  let fileNames := candidateFileNames pathJoin dirs wireStateFile
  match probeAll fs fileNames with
  | .error e => .error (.io e)
  | .ok matchResults =>
    match fileNames.get? (matchResults.findIdx fun b => b) with
    | none => .error (.notFound wireStateFile)
    | some firstMatchedFileName => .ok firstMatchedFileName

/-- Modelled from the spec (§4.6; the `Cache` class of src/internal is not
under src/): the registered future, identified by the physical file its
computation reads and then analyzes. -/
structure FutureVal where
  readsFile : String
deriving DecidableEq

/-- Modelled from the spec: the cache's key-to-future map. -/
abbrev CacheMap : Type := List (String × FutureVal)

/-- Modelled from the spec: `cache.has(key)`. -/
def cacheHas (c : CacheMap) (key : String) : Bool :=
  (List.lookup key c).isSome

/-- Modelled from the spec: `cache.get(key)`; `none` models the `undefined`
resulting from a key that was never `set`. -/
def cacheGetKey (c : CacheMap) (key : String) : Option FutureVal :=
  List.lookup key c

/-- Modelled from the spec: `cache.set(key, future)`. -/
def cacheSet (c : CacheMap) (key : String) (v : FutureVal) : CacheMap :=
  (key, v) :: c

/-- `requireWireStateFile` (analyzer.js lines 59-100) with its cache
interaction: probe the search directories; ask `cache.has` with the LOGICAL
key `wireStateFile`; on a miss register the read-and-analyze future under
`wireStateFile`; but answer both branches with `cache.get` applied to the
MATCHED path `firstMatchedFileName`.  Returns the updated cache and whatever
`cache.get` produced. -/
def requireWireStateFile (pathJoin : String → String → String)
    (fs : String → StatResult) (cache : CacheMap) (dirs : List String)
    (wireStateFile : String) : Except ReqError (CacheMap × Option FutureVal) :=
  match requireWireStateFileResolve pathJoin fs dirs wireStateFile with
  | .error e => .error e
  | .ok firstMatchedFileName =>
    if cacheHas cache wireStateFile then
      .ok (cache, cacheGetKey cache firstMatchedFileName)
    else
      let cache2 := cacheSet cache wireStateFile ⟨firstMatchedFileName⟩
      .ok (cache2, cacheGetKey cache2 firstMatchedFileName)

/-! ## Generator dispatch (lib/generator/index.js) -/

/-- Which backend the dispatcher ran (the backends live in
lib/generator/internal, outside the dispatcher). -/
inductive GenOutput where
  | json
  | xstate (disableCallbacks : Bool)
deriving DecidableEq

/-- Errors thrown by `generate`: the falsy-name guard ("Generator name must
be provided") and the unknown-name error (`Generator "<name>" not found`). -/
inductive GenError where
  | nameMustBeProvided
  | generatorNotFound (name : String)
deriving DecidableEq

/-- `generate` (lib/generator/index.js lines 13-22).  The `generatorName`
option defaults to `'json'` when omitted; among strings only `''` is falsy.
The cache argument is passed through to the chosen backend and never touched
by the dispatcher, so it is omitted here. -/
def generate (generatorName : String) (disableCallbacks : Bool) :
    Except GenError GenOutput :=
  if generatorName = "" then .error .nameMustBeProvided
  else if generatorName = "json" then .ok .json
  else if generatorName = "xstate" then .ok (.xstate disableCallbacks)
  else .error (.generatorNotFound generatorName)

/-- Calling `generate` with the `generatorName` option omitted: the default
parameter value `'json'` is used. -/
def generateDefault (disableCallbacks : Bool) : Except GenError GenOutput :=
  generate "json" disableCallbacks

/-! ## CLI option reading (the bin entry script, `readOption` and `main`) -/

/-- Model of JS `s.split('=')`. -/
def splitEqChar : List Char → List (List Char)
  | [] => [[]]
  | c :: cs =>
    if c = '=' then [] :: splitEqChar cs
    else
      match splitEqChar cs with
      | [] => [[c]]
      | p :: ps => (c :: p) :: ps

/-- Model of JS `parts.join('=')`. -/
def joinEqChar : List (List Char) → List Char
  | [] => []
  | [p] => p
  | p :: q :: ps => p ++ '=' :: joinEqChar (q :: ps)

/-- Errors thrown by `readOption` (CLI script lines 36-37, 55-58). -/
inductive ReadOptionError where
  | mustHaveValue
  | required
  | onlyOneValue
deriving DecidableEq

/-- The value for a matched argument (CLI script lines 30-32): everything
after the first `=` of the argument itself when it contains one
(`split('=').slice(1).join('=')`), else the next argument (`none` models the
`undefined` past the end). -/
def optionValueAt (args : List String) (index : Nat) : Option String :=
  match args.get? index with
  | none => none
  | some arg =>
    if arg.data.contains '=' then
      some (String.mk (joinEqChar ((splitEqChar arg.data).drop 1)))
    else args.get? (index + 1)

/-- Loop state of `readOption`: `argValues` and `argCount`. -/
structure ReadOptionState where
  argValues : List String
  argCount : Nat

/-- One iteration of `names.forEach` in `readOption` (CLI script lines
26-48), for a string-or-null `defaultValue` (the boolean and array branches
are dead for the options `main` reads; `!value` catches both the missing and
the empty value). -/
def readOptionStep (args : List String) (st : ReadOptionState) (name : String) :
    Except ReadOptionError ReadOptionState :=
  match args.findIdx? (fun arg => jsStartsWith arg name) with
  | none => .ok st
  | some index =>
    match optionValueAt args index with
    | none => .error .mustHaveValue
    | some value =>
      if value = "" ∨ jsStartsWith value "-" then .error .mustHaveValue
      else
        .ok ⟨if st.argCount = 0 then [value] else st.argValues ++ [value],
          st.argCount + 1⟩

/-- `readOption` (CLI script lines 22-61) for a string-or-null
`defaultValue`: `[].concat(defaultValue)` seeds `argValues`; after the loop a
single match returns its value, no match with a null default is "required",
and every other count throws "only allows one value". -/
def readOption (names : List String) (args : List String)
    (defaultValue : Option String) : Except ReadOptionError String := do
  let init : ReadOptionState := ⟨[defaultValue.getD ""], 0⟩
  let final ← names.foldlM (readOptionStep args) init
  if final.argCount = 1 then
    return final.argValues.headD ""
  else if final.argCount = 0 ∧ defaultValue = none then
    throw .required
  else
    throw .onlyOneValue

/-- The search-directory option read by `main` (CLI script line 81):
`readOption([ '--dir' ], args, { defaultValue: '' })`. -/
def mainDirOption (args : List String) : Except ReadOptionError String :=
  readOption ["--dir"] args (some "")


/-! ## Derived predicates used to state the claims -/

/-- Number of children flagged initial. -/
def countInitial (l : List StateNode) : Nat := (l.filter fun c => c.initial).length

mutual

/-- Every node of a state tree that has children has exactly one child
flagged `initial`. -/
def initOK : StateNode → Bool
  | .mk _ _ _ _ _ _ _ _ sts =>
    (sts.isEmpty || decide (countInitial sts = 1)) && initOKList sts
termination_by s => sizeOf s
decreasing_by
  all_goals simp_wf
  all_goals omega

def initOKList : List StateNode → Bool
  | [] => true
  | s :: rest => initOK s && initOKList rest
termination_by l => sizeOf l
decreasing_by
  all_goals simp_wf
  all_goals omega

end

/-- Modelled from the spec: "a machine either in the same `Scope` or in any
transitively imported `Scope`" — the transitive closure of the import
relation recorded in the cache, starting from a scope's direct import
files. -/
inductive SpecTransitivelyImported (cacheGet : String → Option ScopeRef)
    (files : List String) : String → Prop
  | direct {f : String} : f ∈ files → SpecTransitivelyImported cacheGet files f
  | step {f g : String} {sc : ScopeRef} :
      SpecTransitivelyImported cacheGet files f → cacheGet f = some sc →
      g ∈ sc.imports → SpecTransitivelyImported cacheGet files g

/-! ## Structural lemmas about the analyzer -/

theorem orElse_eq_none_iff {α : Type} {a : Option α} {f : Unit → Option α} :
    a.orElse f = none ↔ a = none ∧ f () = none := by
  cases a <;> simp [Option.orElse]

theorem orElse_some_left {α : Type} {a : α} {f : Unit → Option α} :
    (some a).orElse f = some a := rfl

theorem orElse_none_left {α : Type} {f : Unit → Option α} :
    (Option.none).orElse f = f () := rfl

theorem stateNodePrecheck_none_iff {resolveOk : TransitionNode → Bool}
    {fn : String} {s : StateNode} :
    stateNodePrecheck resolveOk fn s = none ↔
      transientCheck fn s = none ∧
      dupCheck StateNode.id (stateDupErr fn) s.states = none ∧
      dupCheck (fun t => normalizeEventName t.event) (transitionDupErr fn)
        s.transitions = none ∧
      dupCheck (fun p => protocolEventKey p.eventName) (protocolDupErr fn)
        s.eventProtocols = none ∧
      resolveCheck resolveOk fn s.transitions = none ∧
      initialCheck (stateInitialErr fn s) s.states = none := by
  unfold stateNodePrecheck
  simp only [orElse_eq_none_iff]

theorem machineNodePrecheck_none_iff {resolveOk : TransitionNode → Bool}
    {fn : String} {m : MachineNode} :
    machineNodePrecheck resolveOk fn m = none ↔
      dupCheck StateNode.id (stateDupErr fn) m.states = none ∧
      dupCheck (fun t => normalizeEventName t.event) (transitionDupErr fn)
        m.transitions = none ∧
      dupCheck (fun p => protocolEventKey p.eventName) (protocolDupErr fn)
        m.eventProtocols = none ∧
      resolveCheck resolveOk fn m.transitions = none ∧
      initialCheck (machineInitialErr fn m) m.states = none := by
  unfold machineNodePrecheck
  simp only [orElse_eq_none_iff]

theorem initialCheck_eq_none {mkErr : StateNode → SemanticError}
    {states : List StateNode} (h : initialCheck mkErr states = none) :
    ¬ 1 < (states.filter fun c => c.initial).length := by
  intro hlt
  unfold initialCheck at h
  rw [if_pos hlt] at h
  have hlt2 : 1 < (states.filter fun c => c.initial).length := hlt
  cases hget : (states.filter fun c => c.initial).get? 1 with
  | none =>
    rw [List.get?_eq_none] at hget
    omega
  | some c =>
    rw [hget] at h
    simp at h

theorem initialCheck_eq_some {mkErr : StateNode → SemanticError}
    {states : List StateNode} (h : 1 < (states.filter fun c => c.initial).length) :
    ∃ c, (states.filter fun c => c.initial).get? 1 = some c ∧
      initialCheck mkErr states = some (mkErr c) := by
  cases hget : (states.filter fun c => c.initial).get? 1 with
  | none =>
    rw [List.get?_eq_none] at hget
    omega
  | some c =>
    refine ⟨c, rfl, ?_⟩
    unfold initialCheck
    rw [if_pos h, hget]
    rfl

theorem countInitial_nil : countInitial [] = 0 := rfl

theorem countInitial_cons (c : StateNode) (rest : List StateNode) :
    countInitial (c :: rest)
      = (if c.initial then 1 else 0) + countInitial rest := by
  unfold countInitial
  rw [List.filter_cons]
  split <;> simp [List.length_cons] <;> omega

theorem countInitial_eq_zero_iff {l : List StateNode} :
    countInitial l = 0 ↔ ¬ l.any (fun c => c.initial) := by
  induction l with
  | nil => simp [countInitial_nil]
  | cons c rest ih =>
    rw [countInitial_cons, List.any_cons]
    by_cases hc : c.initial = true
    · simp [hc]
    · have hc2 : c.initial = false := by
        cases hcc : c.initial
        · rfl
        · exact absurd hcc hc
      simp [hc2, ih]

theorem setInitial_initial (s : StateNode) (b : Bool) :
    (s.setInitial b).initial = b := by
  cases s
  rfl

theorem completeInitial_of_none {sts : List StateNode} (hne : sts ≠ [])
    (h0 : ¬ sts.any (fun c => c.initial)) :
    ∃ c0 rest, sts = c0 :: rest ∧
      completeInitial sts = c0.setInitial true :: rest := by
  cases sts with
  | nil => exact absurd rfl hne
  | cons c0 rest =>
    refine ⟨c0, rest, rfl, ?_⟩
    unfold completeInitial
    rw [if_pos ⟨by simp, h0⟩]

theorem completeInitial_of_any {sts : List StateNode}
    (h : sts.any (fun c => c.initial)) : completeInitial sts = sts := by
  unfold completeInitial
  rw [if_neg]
  intro hcontra
  exact hcontra.2 h

theorem completeInitial_nil : completeInitial [] = [] := rfl

theorem countInitial_completeInitial {sts : List StateNode}
    (h : countInitial sts ≤ 1) (hne : sts ≠ []) :
    countInitial (completeInitial sts) = 1 := by
  by_cases hany : sts.any (fun c => c.initial)
  · rw [completeInitial_of_any hany]
    rcases Nat.lt_or_ge (countInitial sts) 1 with h1 | h1
    · have h0 : countInitial sts = 0 := by omega
      exact absurd (countInitial_eq_zero_iff.1 h0) (by simpa using hany)
    · omega
  · have h0 : countInitial sts = 0 := countInitial_eq_zero_iff.2 hany
    obtain ⟨c0, rest, rfl, hcomp⟩ := completeInitial_of_none hne hany
    rw [countInitial_cons] at h0
    cases hc0 : c0.initial with
    | true =>
      rw [hc0] at h0
      simp at h0
    | false =>
      rw [hc0] at h0
      simp at h0
      rw [hcomp, countInitial_cons, setInitial_initial, h0]
      simp


section Inversion

variable {ctx : AnalyzerContext} {fn : String} {mids imps : List String}

theorem analyzeStateNode_precheck_some {s : StateNode} {e : SemanticError}
    (h : stateNodePrecheck ctx.resolveOk fn s = some e) :
    analyzeStateNode ctx fn mids imps s = .error (.sem e) := by
  cases s with
  | mk i st ini ln col tr eps ud sts =>
    simp only [analyzeStateNode]
    rw [h]

theorem analyzeStateNode_ok_inv {s s2 : StateNode}
    (h : analyzeStateNode ctx fn mids imps s = .ok s2) :
    stateNodePrecheck ctx.resolveOk fn s = none ∧
    ∃ sts2 ud2,
      analyzeStateList ctx fn mids imps (completeInitial s.states) = .ok sts2 ∧
      analyzeUseDirectiveNode ctx fn mids imps s.useDirective = .ok ud2 ∧
      s2 = StateNode.mk s.id
        (if s.stateType = "atomic" ∧ 0 < s.states.length then "compound"
          else s.stateType)
        s.initial s.line s.column s.transitions s.eventProtocols ud2 sts2 := by
  cases s with
  | mk i st ini ln col tr eps ud sts =>
    simp only [analyzeStateNode] at h
    split at h
    · exact absurd h (by simp)
    · rename_i hpre
      split at h
      · exact absurd h (by simp)
      · rename_i sts2 hsts
        split at h
        · exact absurd h (by simp)
        · rename_i ud2 hud
          refine ⟨hpre, sts2, ud2, hsts, hud, ?_⟩
          injection h with h2
          subst h2
          rfl

theorem analyzeStateList_ok_forall : ∀ {l l2 : List StateNode},
    analyzeStateList ctx fn mids imps l = .ok l2 →
    List.Forall₂ (fun a b => analyzeStateNode ctx fn mids imps a = .ok b) l l2 := by
  intro l
  induction l with
  | nil =>
    intro l2 h
    simp only [analyzeStateList] at h
    injection h with h2
    subst h2
    exact List.Forall₂.nil
  | cons s rest ih =>
    intro l2 h
    simp only [analyzeStateList] at h
    split at h
    · exact absurd h (by simp)
    · rename_i s2 hs
      split at h
      · exact absurd h (by simp)
      · rename_i rest2 hrest
        injection h with h2
        subst h2
        exact List.Forall₂.cons hs (ih hrest)

theorem analyzeMachineNode_precheck_some {m : MachineNode} {e : SemanticError}
    (h : machineNodePrecheck ctx.resolveOk fn m = some e) :
    analyzeMachineNode ctx fn mids imps m = .error (.sem e) := by
  simp only [analyzeMachineNode]
  rw [h]

theorem analyzeMachineNode_ok_inv {m m2 : MachineNode}
    (h : analyzeMachineNode ctx fn mids imps m = .ok m2) :
    machineNodePrecheck ctx.resolveOk fn m = none ∧
    ∃ sts2,
      analyzeStateList ctx fn mids imps (completeInitial m.states) = .ok sts2 ∧
      m2 = { m with states := sts2 } := by
  simp only [analyzeMachineNode] at h
  split at h
  · exact absurd h (by simp)
  · rename_i hpre
    split at h
    · exact absurd h (by simp)
    · rename_i sts2 hsts
      refine ⟨hpre, sts2, hsts, ?_⟩
      injection h with h2
      subst h2
      rfl

theorem forall₂_mem_right {R : StateNode → StateNode → Prop}
    {l l2 : List StateNode} (h : List.Forall₂ R l l2) {b : StateNode}
    (hb : b ∈ l2) : ∃ a ∈ l, R a b := by
  induction h with
  | nil => simp at hb
  | cons hab htail ih =>
    rcases List.mem_cons.1 hb with hb | hb
    · subst hb
      exact ⟨_, List.mem_cons_self _ _, hab⟩
    · obtain ⟨a, ha, hr⟩ := ih hb
      exact ⟨a, List.mem_cons_of_mem _ ha, hr⟩

theorem analyzeStateNode_ok_initial {s s2 : StateNode}
    (h : analyzeStateNode ctx fn mids imps s = .ok s2) :
    s2.initial = s.initial := by
  obtain ⟨-, sts2, ud2, -, -, rfl⟩ := analyzeStateNode_ok_inv h
  rfl

theorem countInitial_of_forall₂ : ∀ {l l2 : List StateNode},
    List.Forall₂ (fun a b => analyzeStateNode ctx fn mids imps a = .ok b) l l2 →
    countInitial l2 = countInitial l := by
  intro l l2 h
  induction h with
  | nil => rfl
  | cons hab htail ih =>
    rw [countInitial_cons, countInitial_cons, ih,
      analyzeStateNode_ok_initial hab]

theorem initOKList_of_forall {l2 : List StateNode}
    (h : ∀ b ∈ l2, initOK b = true) : initOKList l2 = true := by
  induction l2 with
  | nil => simp [initOKList]
  | cons b rest ih =>
    simp only [initOKList, Bool.and_eq_true]
    exact ⟨h b (List.mem_cons_self b rest), ih fun c hc =>
      h c (List.mem_cons_of_mem b hc)⟩

end Inversion


/-! ## The claims -/

/-- C2: event normalization (split the event on `,`, trim each part, sort
lexicographically, rejoin with `,`) is idempotent; the events `"a,b"` and
`"b, a"` normalize equal and two transitions carrying them are reported as
duplicates by the transition-uniqueness check; and event-protocol uniqueness
is decided by the very same normalization. -/
theorem C2_normalization_idempotent :
    (∀ s : String,
      normalizeEventName (normalizeEventName s) = normalizeEventName s) ∧
    normalizeEventName "a,b" = normalizeEventName "b, a" ∧
    (dupCheck (fun t => normalizeEventName t.event) (transitionDupErr "f")
      [⟨"a,b", "B", 2, 3⟩, ⟨"b, a", "B", 3, 3⟩]).isSome = true ∧
    (∀ s : String, protocolEventKey s = normalizeEventName s) :=
  ⟨normalizeEventName_idem, by decide, by decide, fun _ => rfl⟩

/-- C8 counterexample: the empty string is a generator name other than
`json` and `xstate`, yet `generate` fails with the "Generator name must be
provided" error, not with the unknown-generator ("not found") error the
claim requires for every other name. -/
theorem C8_counterexample_empty_name :
    generate "" false = .error .nameMustBeProvided ∧
    GenError.nameMustBeProvided ≠ GenError.generatorNotFound "" :=
  ⟨rfl, by decide⟩

/-- C8 (amended): `generate` dispatches `json` — also the default when the
option is omitted — to the json backend and `xstate` to the xstate backend;
every other NON-EMPTY generator name fails with the unknown-generator error,
while the empty name fails with "Generator name must be provided"; the
dispatcher is pure, so nothing is modified on failure. -/
theorem C8_generate_dispatch :
    (∀ d, generate "json" d = .ok .json) ∧
    (∀ d, generateDefault d = generate "json" d) ∧
    (∀ d, generate "xstate" d = .ok (.xstate d)) ∧
    (∀ name d, name ≠ "" → name ≠ "json" → name ≠ "xstate" →
      generate name d = .error (.generatorNotFound name)) ∧
    (∀ d, generate "" d = .error .nameMustBeProvided) := by
  refine ⟨fun _ => rfl, fun _ => rfl, fun _ => rfl, ?_, fun _ => rfl⟩
  intro name d h1 h2 h3
  unfold generate
  rw [if_neg h1, if_neg h2, if_neg h3]

/-- C10: `analyze` rejects every non-`ScopeNode` argument by THROWING
synchronously, with the message exactly as written in the source (typo
included); the result is never a (rejected) promise and is independent of
the analyzer's context and cache; a `ScopeNode` argument is analyzed through
`clone`, and the clone is structurally equal to the untouched argument. -/
theorem C10_analyze_typeguard :
    (∀ ctx : AnalyzerContext,
      analyze ctx .otherValue
        = .syncThrow "Can only analyzie ScopeNode instances") ∧
    (∀ (ctx : AnalyzerContext) (p : Except AError ScopeNode),
      analyze ctx .otherValue ≠ .promise p) ∧
    (∀ ctx1 ctx2 : AnalyzerContext,
      analyze ctx1 .otherValue = analyze ctx2 .otherValue) ∧
    (∀ (ctx : AnalyzerContext) (s : ScopeNode),
      analyze ctx (.scopeNode s) = .promise (analyzeScopeNode ctx s.clone)) ∧
    (∀ s : ScopeNode, s.clone = s) := by
  refine ⟨fun _ => rfl, ?_, fun _ _ => rfl, fun _ _ => rfl, fun _ => rfl⟩
  intro ctx p h
  exact SyncOrPromise.noConfusion h

/-- C9: the CLI reads only `--dir` (CLI script line 81) although docs/CLI.md
documents `--srcDir`: with `--srcDir statechart` on the command line the
option loop matches nothing and — the loop having matched nothing while the
default `''` is not null — `readOption` throws "Option --dir only allows one
value"; omitting the option entirely throws the same, so the documented
current-directory default never applies; only `--dir value` is accepted. -/
theorem C9_srcDir_is_not_read :
    mainDirOption ["statechart/App.wirestate", "--srcDir", "statechart"]
      = .error .onlyOneValue ∧
    mainDirOption ["statechart/App.wirestate"] = .error .onlyOneValue ∧
    mainDirOption ["statechart/App.wirestate", "--dir", "statechart"]
      = .ok "statechart" :=
  ⟨rfl, rfl, rfl⟩

/-- The `Path.join` used in the C1 evaluation. -/
def c1PathJoin : String → String → String := fun d f => d ++ "/" ++ f

/-- A file system where only `lib/a.state` exists (as a regular file). -/
def c1Fs : String → StatResult := fun n =>
  if n = "lib/a.state" then .file else .enoent

/-- C1: with search directories `["lib"]` and the import `"a.state"` found
at `lib/a.state`, `requireWireStateFile` registers the read-and-analyze
future under the logical key `"a.state"` but answers with
`cache.get "lib/a.state"` — a key that was never set: the call returns
`undefined` (`none`) instead of the registered future, on the first call and
on every later cache-hitting call alike, although `get` at the logical key
would have returned the registered future. -/
theorem C1_cache_get_key_mismatch :
    requireWireStateFile c1PathJoin c1Fs [] ["lib"] "a.state"
      = .ok ([("a.state", ⟨"lib/a.state"⟩)], none) ∧
    cacheGetKey [("a.state", ⟨"lib/a.state"⟩)] "a.state"
      = some ⟨"lib/a.state"⟩ ∧
    cacheHas [("a.state", ⟨"lib/a.state"⟩)] "a.state" = true ∧
    requireWireStateFile c1PathJoin c1Fs [("a.state", ⟨"lib/a.state"⟩)]
      ["lib"] "a.state" = .ok ([("a.state", ⟨"lib/a.state"⟩)], none) :=
  ⟨rfl, rfl, rfl, rfl⟩


/-! ## Lemmas about the source reader -/

theorem probeAll_ok_of_no_ioError {fs : String → StatResult} :
    ∀ {names : List String}, (∀ n ∈ names, ∀ e, fs n ≠ .ioError e) →
    probeAll fs names = .ok (names.map fun n => decide (fs n = .file)) := by
  intro names
  induction names with
  | nil => intro h; rfl
  | cons n rest ih =>
    intro h
    have hn := h n (List.mem_cons_self n rest)
    have hrest := ih fun m hm e => h m (List.mem_cons_of_mem n hm) e
    simp only [probeAll, hrest, List.map_cons]
    cases hfs : fs n with
    | file => simp [statCheck, hfs]
    | notFile => simp [statCheck, hfs]
    | enoent => simp [statCheck, hfs]
    | ioError e => exact absurd hfs (hn e)

theorem findIdx_decide_map (fs : String → StatResult) (names : List String) :
    List.findIdx (fun b => b) (names.map fun n => decide (fs n = .file))
      = List.findIdx (fun n => decide (fs n = .file)) names := by
  induction names with
  | nil => rfl
  | cons n rest ih =>
    cases h : decide (fs n = .file) <;>
      simp [List.findIdx_cons, h, ih]

theorem findIdx_eq_of_first {α : Type} {p : α → Bool} : ∀ {l : List α} {i : Nat}
    {x : α}, l.get? i = some x → p x = true →
    (∀ j < i, ∀ y, l.get? j = some y → p y = false) → l.findIdx p = i := by
  intro l
  induction l with
  | nil => intro i x h; simp at h
  | cons a rest ih =>
    intro i x hget hpx hbefore
    cases i with
    | zero =>
      simp only [List.get?] at hget
      injection hget with hax
      subst hax
      simp [List.findIdx_cons, hpx]
    | succ k =>
      have ha : p a = false := hbefore 0 (Nat.succ_pos k) a rfl
      have htail : List.findIdx p rest = k :=
        ih hget hpx fun j hj y hy => hbefore (j + 1) (Nat.succ_lt_succ hj) y hy
      simp [List.findIdx_cons, ha, htail]

theorem findIdx_eq_length_of_all_false {α : Type} {p : α → Bool} :
    ∀ {l : List α}, (∀ y ∈ l, p y = false) → l.findIdx p = l.length := by
  intro l
  induction l with
  | nil => intro h; rfl
  | cons a rest ih =>
    intro h
    have ha := h a (List.mem_cons_self a rest)
    have htail := ih fun y hy => h y (List.mem_cons_of_mem a hy)
    simp [List.findIdx_cons, ha, htail]

theorem probeAll_error_at {fs : String → StatResult} : ∀ {names : List String}
    {i : Nat} {m : String} {e : String}, names.get? i = some m →
    fs m = .ioError e →
    (∀ j < i, ∀ y, names.get? j = some y → ∀ e2, fs y ≠ .ioError e2) →
    probeAll fs names = .error e := by
  intro names
  induction names with
  | nil => intro i m e h; simp at h
  | cons n rest ih =>
    intro i m e hget hio hbefore
    cases i with
    | zero =>
      simp only [List.get?] at hget
      injection hget with hnm
      subst hnm
      simp [probeAll, statCheck, hio]
    | succ k =>
      have hn : ∀ e2, fs n ≠ .ioError e2 := fun e2 =>
        hbefore 0 (Nat.succ_pos k) n rfl e2
      have hrest := ih hget hio fun j hj y hy e2 =>
        hbefore (j + 1) (Nat.succ_lt_succ hj) y hy e2
      simp only [probeAll, hrest]
      cases hfs : fs n with
      | ioError e2 => exact absurd hfs (hn e2)
      | file => simp [statCheck, hfs]
      | notFile => simp [statCheck, hfs]
      | enoent => simp [statCheck, hfs]

/-- C7: an import path beginning `./` or `.\` is resolved against the parent
scope's file, any other path is kept as written and tried against each search
directory in order (defaulting to `['.']` when none is configured); the first
candidate that stats as a regular file wins; when no candidate is a regular
file the import fails with the ENOENT-coded NotFound error; and any other
I/O error is surfaced unchanged. -/
theorem C7_import_resolution :
    (∀ (pathJoin : String → String → String) (parentFile f : String),
      jsStartsWith f "./" = true ∨ jsStartsWith f ".\\" = true →
      resolveImportFilePath pathJoin parentFile f = pathJoin parentFile f) ∧
    (∀ (pathJoin : String → String → String) (parentFile f : String),
      jsStartsWith f "./" = false → jsStartsWith f ".\\" = false →
      resolveImportFilePath pathJoin parentFile f = f) ∧
    (∀ (pathJoin : String → String → String) (f : String),
      candidateFileNames pathJoin [] f = [pathJoin "." f]) ∧
    (∀ (pathJoin : String → String → String) (fs : String → StatResult)
      (dirs : List String) (f : String) (i : Nat) (n : String),
      (candidateFileNames pathJoin dirs f).get? i = some n →
      fs n = .file →
      (∀ j < i, ∀ m, (candidateFileNames pathJoin dirs f).get? j = some m →
        fs m = .notFile ∨ fs m = .enoent) →
      (∀ m ∈ candidateFileNames pathJoin dirs f, ∀ e, fs m ≠ .ioError e) →
      requireWireStateFileResolve pathJoin fs dirs f = .ok n) ∧
    (∀ (pathJoin : String → String → String) (fs : String → StatResult)
      (dirs : List String) (f : String),
      (∀ m ∈ candidateFileNames pathJoin dirs f,
        fs m = .notFile ∨ fs m = .enoent) →
      requireWireStateFileResolve pathJoin fs dirs f
        = .error (.notFound f)) ∧
    (∀ (pathJoin : String → String → String) (fs : String → StatResult)
      (dirs : List String) (f : String) (i : Nat) (m : String) (e : String),
      (candidateFileNames pathJoin dirs f).get? i = some m →
      fs m = .ioError e →
      (∀ j < i, ∀ y, (candidateFileNames pathJoin dirs f).get? j = some y →
        ∀ e2, fs y ≠ .ioError e2) →
      requireWireStateFileResolve pathJoin fs dirs f = .error (.io e)) := by
  refine ⟨?_, ?_, ?_, ?_, ?_, ?_⟩
  · intro pathJoin parentFile f h
    rcases h with h | h <;> simp [resolveImportFilePath, h]
  · intro pathJoin parentFile f h1 h2
    simp [resolveImportFilePath, h1, h2]
  · intro pathJoin f
    rfl
  · intro pathJoin fs dirs f i n hget hfile hbefore hnoio
    have hprobe := probeAll_ok_of_no_ioError hnoio
    simp only [requireWireStateFileResolve, hprobe]
    rw [findIdx_decide_map]
    have hidx : (candidateFileNames pathJoin dirs f).findIdx
        (fun n => decide (fs n = .file)) = i := by
      refine findIdx_eq_of_first hget (by simp [hfile]) ?_
      intro j hj y hy
      rcases hbefore j hj y hy with hm | hm <;> simp [hm]
    rw [hidx, hget]
  · intro pathJoin fs dirs f hall
    have hnoio : ∀ m ∈ candidateFileNames pathJoin dirs f, ∀ e,
        fs m ≠ .ioError e := by
      intro m hm e
      rcases hall m hm with hm2 | hm2 <;> simp [hm2]
    have hprobe := probeAll_ok_of_no_ioError hnoio
    simp only [requireWireStateFileResolve, hprobe]
    rw [findIdx_decide_map]
    have hidx : (candidateFileNames pathJoin dirs f).findIdx
        (fun n => decide (fs n = .file))
        = (candidateFileNames pathJoin dirs f).length := by
      refine findIdx_eq_length_of_all_false ?_
      intro y hy
      rcases hall y hy with hm | hm <;> simp [hm]
    rw [hidx]
    rw [List.get?_eq_none.2 (le_refl _)]
  · intro pathJoin fs dirs f i m e hget hio hbefore
    have hprobe := probeAll_error_at hget hio hbefore
    simp only [requireWireStateFileResolve, hprobe]


/-! ## Lemmas about `@use` resolution -/

theorem getImportedScopes_ok {cg : String → Option ScopeRef} :
    ∀ {imps : List String}, (∀ f ∈ imps, (cg f).isSome = true) →
    ∃ scs, getImportedScopes cg imps = .ok scs ∧
      List.Forall₂ (fun f sc => cg f = some sc) imps scs := by
  intro imps
  induction imps with
  | nil => intro h; exact ⟨[], rfl, List.Forall₂.nil⟩
  | cons f rest ih =>
    intro h
    have hf := h f (List.mem_cons_self f rest)
    cases hcg : cg f with
    | none => rw [hcg] at hf; simp at hf
    | some sc =>
      obtain ⟨scs, hscs, hfa⟩ := ih fun g hg => h g (List.mem_cons_of_mem f hg)
      exact ⟨sc :: scs, by simp [getImportedScopes, hcg, hscs],
        List.Forall₂.cons hcg hfa⟩

theorem find?_id_isSome_iff {mid : String} : ∀ {ids : List String},
    (ids.find? fun m => decide (m = mid)).isSome = true ↔ mid ∈ ids := by
  intro ids
  induction ids with
  | nil => simp
  | cons a rest ih =>
    by_cases ha : a = mid
    · subst ha
      rw [List.find?_cons_of_pos _ (by simp)]
      simp
    · rw [List.find?_cons_of_neg _ (by simp [ha]), ih, List.mem_cons]
      constructor
      · intro h
        exact Or.inr h
      · intro h
        rcases h with h | h
        · exact absurd h.symm ha
        · exact h

theorem findSome?_machines_isSome_iff {mid : String} : ∀ {scs : List ScopeRef},
    (scs.findSome? fun sc =>
      sc.machines.find? fun m => decide (m = mid)).isSome = true
      ↔ ∃ sc ∈ scs, mid ∈ sc.machines := by
  intro scs
  induction scs with
  | nil => simp [List.findSome?]
  | cons sc rest ih =>
    rw [List.findSome?_cons]
    cases hf : sc.machines.find? fun m => decide (m = mid) with
    | some a =>
      have hmem : mid ∈ sc.machines := find?_id_isSome_iff.1 (by rw [hf]; rfl)
      simp only [Option.isSome_some, true_iff]
      exact ⟨sc, List.mem_cons_self sc rest, hmem⟩
    | none =>
      have hnot : mid ∉ sc.machines := by
        intro hmem
        have := find?_id_isSome_iff.2 hmem
        rw [hf] at this
        simp at this
      rw [ih]
      constructor
      · rintro ⟨sc2, hsc2, hmid⟩
        exact ⟨sc2, List.mem_cons_of_mem sc hsc2, hmid⟩
      · rintro ⟨sc2, hsc2, hmid⟩
        rcases List.mem_cons.1 hsc2 with h | h
        · subst h
          exact absurd hmid hnot
        · exact ⟨sc2, h, hmid⟩

theorem forall₂_cacheGet_mem {cg : String → Option ScopeRef} {mid : String} :
    ∀ {imps : List String} {scs : List ScopeRef},
    List.Forall₂ (fun f sc => cg f = some sc) imps scs →
    ((∃ sc ∈ scs, mid ∈ sc.machines)
      ↔ ∃ f ∈ imps, ∃ sc, cg f = some sc ∧ mid ∈ sc.machines) := by
  intro imps
  induction imps with
  | nil =>
    intro scs h
    cases h
    simp
  | cons f rest ih =>
    intro scs h
    cases h with
    | @cons _ sc _ restScs hfsc htail =>
      constructor
      · rintro ⟨sc2, hsc2, hmid⟩
        rcases List.mem_cons.1 hsc2 with h2 | h2
        · subst h2
          exact ⟨f, List.mem_cons_self f rest, sc2, hfsc, hmid⟩
        · obtain ⟨g, hg, sc3, hcg, hm3⟩ := (ih htail).1 ⟨sc2, h2, hmid⟩
          exact ⟨g, List.mem_cons_of_mem f hg, sc3, hcg, hm3⟩
      · rintro ⟨g, hg, sc3, hcg, hm3⟩
        rcases List.mem_cons.1 hg with h2 | h2
        · subst h2
          rw [hfsc] at hcg
          injection hcg with hcg2
          subst hcg2
          exact ⟨sc, List.mem_cons_self sc restScs, hm3⟩
        · obtain ⟨sc2, hsc2, hmid⟩ := (ih htail).2 ⟨g, h2, sc3, hcg, hm3⟩
          exact ⟨sc2, List.mem_cons_of_mem sc hsc2, hmid⟩

/-- C6 (amended): given every DIRECT import registered in the cache, a
use-directive resolves successfully iff its `machineId` names a machine of
the state's own scope or of some DIRECTLY imported scope; otherwise the
"Machine not found" `SemanticError` is raised at the directive's location. -/
theorem C6_use_resolves_directly_only (ctx : AnalyzerContext) (fn : String)
    (mids imps : List String) (ud : UseDirectiveNode)
    (himps : ∀ f ∈ imps, (ctx.cacheGet f).isSome = true) :
    (analyzeUseDirectiveNode ctx fn mids imps (some ud) = .ok (some ud) ↔
      ud.machineId ∈ mids ∨ ∃ f ∈ imps, ∃ sc, ctx.cacheGet f = some sc ∧
        ud.machineId ∈ sc.machines) ∧
    (¬ (ud.machineId ∈ mids ∨ ∃ f ∈ imps, ∃ sc, ctx.cacheGet f = some sc ∧
        ud.machineId ∈ sc.machines) →
      analyzeUseDirectiveNode ctx fn mids imps (some ud)
        = .error (.sem ⟨"Machine not found\n  Machine ID: " ++ ud.machineId,
            fn, ud.line, ud.column⟩)) := by
  obtain ⟨scs, hscs, hfa⟩ := getImportedScopes_ok himps
  cases hown : mids.find? fun mid => decide (mid = ud.machineId) with
  | some a =>
    have hmem : ud.machineId ∈ mids := find?_id_isSome_iff.1 (by rw [hown]; rfl)
    have hres : analyzeUseDirectiveNode ctx fn mids imps (some ud)
        = .ok (some ud) := by
      simp only [analyzeUseDirectiveNode, hown]
    rw [hres]
    exact ⟨⟨fun _ => Or.inl hmem, fun _ => rfl⟩,
      fun hno => absurd (Or.inl hmem) hno⟩
  | none =>
    have hnotmem : ud.machineId ∉ mids := by
      intro hmem
      have h2 := find?_id_isSome_iff.2 hmem
      rw [hown] at h2
      simp at h2
    cases hfind : scs.findSome? (fun sc =>
        sc.machines.find? fun mid => decide (mid = ud.machineId)) with
    | some a =>
      have hex : ∃ sc ∈ scs, ud.machineId ∈ sc.machines :=
        findSome?_machines_isSome_iff.1 (by rw [hfind]; rfl)
      have hres : analyzeUseDirectiveNode ctx fn mids imps (some ud)
          = .ok (some ud) := by
        simp only [analyzeUseDirectiveNode, hown, hscs, hfind]
      rw [hres]
      exact ⟨⟨fun _ => Or.inr ((forall₂_cacheGet_mem hfa).1 hex), fun _ => rfl⟩,
        fun hno => absurd (Or.inr ((forall₂_cacheGet_mem hfa).1 hex)) hno⟩
    | none =>
      have hnoex : ¬ ∃ sc ∈ scs, ud.machineId ∈ sc.machines := by
        intro hex
        have h2 := findSome?_machines_isSome_iff.2 hex
        rw [hfind] at h2
        simp at h2
      have hres : analyzeUseDirectiveNode ctx fn mids imps (some ud)
          = .error (.sem ⟨"Machine not found\n  Machine ID: " ++ ud.machineId,
              fn, ud.line, ud.column⟩) := by
        simp only [analyzeUseDirectiveNode, hown, hscs, hfind]
      rw [hres]
      refine ⟨⟨fun h => Except.noConfusion h, fun h => ?_⟩, fun _ => rfl⟩
      rcases h with h | h
      · exact absurd h hnotmem
      · exact absurd ((forall₂_cacheGet_mem hfa).2 h) hnoex

/-- Cache used by the C6 counterexample: the root imports `a.state`, which
itself imports `b.state`, and only `b.state` declares the machine `M`. -/
def c6CacheGet : String → Option ScopeRef := fun f =>
  if f = "a.state" then some ⟨[], ["b.state"]⟩
  else if f = "b.state" then some ⟨["M"], []⟩
  else none

/-- Analyzer context of the C6 counterexample. -/
def c6Ctx : AnalyzerContext := ⟨fun _ => true, c6CacheGet, fun d f => d ++ "/" ++ f⟩

/-- Witness for the amended C6 statement at a concrete directive whose
machine lives in the state's own scope. -/
theorem C6_use_resolves_directly_only_witness :
    analyzeUseDirectiveNode c6Ctx "root.state" ["M"] [] (some ⟨"M", 1, 1⟩)
      = .ok (some ⟨"M", 1, 1⟩) :=
  (C6_use_resolves_directly_only c6Ctx "root.state" ["M"] [] ⟨"M", 1, 1⟩
    (by simp)).1.2 (Or.inl (by simp))

/-- C6 counterexample: the machine `M` lives in a TRANSITIVELY imported scope
(`root -> a.state -> b.state`), yet resolution of `@use M` raises "Machine
not found" instead of succeeding as the claim demands. -/
theorem C6_counterexample_transitive_import :
    SpecTransitivelyImported c6CacheGet ["a.state"] "b.state" ∧
    c6CacheGet "b.state" = some ⟨["M"], []⟩ ∧
    "M" ∈ (ScopeRef.mk ["M"] []).machines ∧
    analyzeUseDirectiveNode c6Ctx "root.state" [] ["a.state"]
      (some ⟨"M", 7, 3⟩)
      = .error (.sem ⟨"Machine not found\n  Machine ID: M", "root.state", 7, 3⟩) ∧
    analyzeUseDirectiveNode c6Ctx "root.state" [] ["a.state"]
      (some ⟨"M", 7, 3⟩) ≠ .ok (some ⟨"M", 7, 3⟩) := by
  have herr : analyzeUseDirectiveNode c6Ctx "root.state" [] ["a.state"]
      (some ⟨"M", 7, 3⟩)
      = .error (.sem ⟨"Machine not found\n  Machine ID: M", "root.state", 7, 3⟩) :=
    rfl
  refine ⟨?_, rfl, by simp, herr, ?_⟩
  · exact .step (.direct (by simp))
      (show c6CacheGet "a.state" = some ⟨[], ["b.state"]⟩ from rfl) (by simp)
  · intro h
    exact Except.noConfusion (herr.symm.trans h)


/-! ## Duplicate-location and state-kind claims -/

theorem find?_eq_some_of_exists {α : Type} {p : α → Bool} {l : List α}
    (h : ∃ x ∈ l, p x = true) : ∃ y, l.find? p = some y := by
  have h2 : (l.find? p).isSome = true := List.find?_isSome.2 h
  cases hf : l.find? p with
  | none => rw [hf] at h2; simp at h2
  | some y => exact ⟨y, rfl⟩

/-- Analyzer context used by concrete evaluations: every transition target
resolves, the cache is empty. -/
def plainCtx : AnalyzerContext := ⟨fun _ => true, fun _ => none, fun d f => d ++ "/" ++ f⟩

/-- C3 counterexample: a scope declaring machine `M` at (1,1) and again at
(5,3); analysis raises the duplicate-machine error located at (1,1) — the
FIRST occurrence — whereas the claim requires the second occurrence (5,3). -/
theorem C3_counterexample_first_occurrence :
    analyzeScopeNode plainCtx ⟨"root.state", [],
        [⟨"M", 1, 1, [], [], []⟩, ⟨"M", 5, 3, [], [], []⟩]⟩
      = .error (.sem ⟨"Duplicate machine\n  Machine ID: \"M\"", "root.state", 1, 1⟩) ∧
    ¬ ((1 : Nat) = 5 ∧ (1 : Nat) = 3) :=
  ⟨rfl, by decide⟩

/-- C3 (amended): a duplicated machine ID in a scope, or a duplicated
normalized transition event in a machine or state whose earlier checks pass,
raises a `SemanticError` located at the FIRST element carrying the duplicated
key (the element `Array.prototype.find` returns), not the second. -/
theorem C3_duplicate_error_at_first_occurrence :
    (∀ (ctx : AnalyzerContext) (scope : ScopeNode),
      (∃ m ∈ scope.machines,
        2 ≤ (scope.machines.map MachineNode.id).count m.id) →
      ∃ m, scope.machines.find? (fun m =>
          decide (2 ≤ (scope.machines.map MachineNode.id).count m.id)) = some m ∧
        analyzeScopeNode ctx scope
          = .error (.sem (machineDupErr scope.fileName m))) ∧
    (∀ (ctx : AnalyzerContext) (fn : String) (mids imps : List String)
      (s : StateNode),
      transientCheck fn s = none →
      dupCheck StateNode.id (stateDupErr fn) s.states = none →
      (∃ t ∈ s.transitions, 2 ≤ (s.transitions.map fun t =>
        normalizeEventName t.event).count (normalizeEventName t.event)) →
      ∃ t, s.transitions.find? (fun t =>
          decide (2 ≤ (s.transitions.map fun t =>
            normalizeEventName t.event).count (normalizeEventName t.event)))
          = some t ∧
        analyzeStateNode ctx fn mids imps s
          = .error (.sem (transitionDupErr fn t))) ∧
    (∀ (ctx : AnalyzerContext) (fn : String) (mids imps : List String)
      (m : MachineNode),
      dupCheck StateNode.id (stateDupErr fn) m.states = none →
      (∃ t ∈ m.transitions, 2 ≤ (m.transitions.map fun t =>
        normalizeEventName t.event).count (normalizeEventName t.event)) →
      ∃ t, m.transitions.find? (fun t =>
          decide (2 ≤ (m.transitions.map fun t =>
            normalizeEventName t.event).count (normalizeEventName t.event)))
          = some t ∧
        analyzeMachineNode ctx fn mids imps m
          = .error (.sem (transitionDupErr fn t))) := by
  refine ⟨?_, ?_, ?_⟩
  · intro ctx scope hex
    obtain ⟨m0, hm0, hc0⟩ := hex
    have hfind0 : ∃ y, scope.machines.find? (fun m =>
        decide (2 ≤ (scope.machines.map MachineNode.id).count m.id)) = some y :=
      find?_eq_some_of_exists ⟨m0, hm0, by simpa using hc0⟩
    obtain ⟨m, hfind⟩ := hfind0
    refine ⟨m, hfind, ?_⟩
    have hdup : dupCheck MachineNode.id (machineDupErr scope.fileName)
        scope.machines = some (machineDupErr scope.fileName m) := by
      rw [dupCheck_eq_find, hfind]
      rfl
    simp only [analyzeScopeNode, hdup]
  · intro ctx fn mids imps s h1 h2 hex
    obtain ⟨t0, ht0, hc0⟩ := hex
    have hfind0 : ∃ y, s.transitions.find? (fun t =>
        decide (2 ≤ (s.transitions.map fun t =>
          normalizeEventName t.event).count (normalizeEventName t.event)))
        = some y :=
      find?_eq_some_of_exists ⟨t0, ht0, by simpa using hc0⟩
    obtain ⟨t, hfind⟩ := hfind0
    refine ⟨t, hfind, ?_⟩
    have hdup : dupCheck (fun t => normalizeEventName t.event)
        (transitionDupErr fn) s.transitions
        = some (transitionDupErr fn t) := by
      rw [dupCheck_eq_find, hfind]
      rfl
    have hpre : stateNodePrecheck ctx.resolveOk fn s
        = some (transitionDupErr fn t) := by
      simp only [stateNodePrecheck, h1, h2, hdup, orElse_none_left,
        orElse_some_left]
    exact analyzeStateNode_precheck_some hpre
  · intro ctx fn mids imps m h2 hex
    obtain ⟨t0, ht0, hc0⟩ := hex
    have hfind0 : ∃ y, m.transitions.find? (fun t =>
        decide (2 ≤ (m.transitions.map fun t =>
          normalizeEventName t.event).count (normalizeEventName t.event)))
        = some y :=
      find?_eq_some_of_exists ⟨t0, ht0, by simpa using hc0⟩
    obtain ⟨t, hfind⟩ := hfind0
    refine ⟨t, hfind, ?_⟩
    have hdup : dupCheck (fun t => normalizeEventName t.event)
        (transitionDupErr fn) m.transitions
        = some (transitionDupErr fn t) := by
      rw [dupCheck_eq_find, hfind]
      rfl
    have hpre : machineNodePrecheck ctx.resolveOk fn m
        = some (transitionDupErr fn t) := by
      simp only [machineNodePrecheck, h2, hdup, orElse_none_left,
        orElse_some_left]
    exact analyzeMachineNode_precheck_some hpre

/-- C5: a `transient` state with at least one child state raises the
"Transient states cannot have child states" `SemanticError`, while for every
successfully analyzed state the resulting kind is `compound` when the input
was an `atomic` state with children and is unchanged for every other kind. -/
theorem C5_state_kind_normalization :
    (∀ (ctx : AnalyzerContext) (fn : String) (mids imps : List String)
      (s : StateNode), s.stateType = "transient" → s.states ≠ [] →
      ∃ c, s.states.head? = some c ∧
        analyzeStateNode ctx fn mids imps s
          = .error (.sem (transientChildrenErr fn s c))) ∧
    (∀ (ctx : AnalyzerContext) (fn : String) (mids imps : List String)
      (s s2 : StateNode), analyzeStateNode ctx fn mids imps s = .ok s2 →
      s2.stateType = if s.stateType = "atomic" ∧ 0 < s.states.length
        then "compound" else s.stateType) := by
  constructor
  · intro ctx fn mids imps s htrans hne
    cases hhead : s.states.head? with
    | none =>
      rw [List.head?_eq_none_iff] at hhead
      exact absurd hhead hne
    | some c =>
      refine ⟨c, rfl, ?_⟩
      have hlen : 0 < s.states.length := by
        cases hs : s.states with
        | nil => exact absurd hs hne
        | cons a rest => simp [hs]
      have hcheck : transientCheck fn s
          = some (transientChildrenErr fn s c) := by
        unfold transientCheck
        rw [if_pos ⟨htrans, hlen⟩, hhead]
        rfl
      have hpre : stateNodePrecheck ctx.resolveOk fn s
          = some (transientChildrenErr fn s c) := by
        simp only [stateNodePrecheck, hcheck, orElse_some_left]
      exact analyzeStateNode_precheck_some hpre
  · intro ctx fn mids imps s s2 h
    obtain ⟨-, sts2, ud2, -, -, rfl⟩ := analyzeStateNode_ok_inv h
    rfl


/-! ## The initial-child rule (C4) -/

section InitialRule

variable {ctx : AnalyzerContext} {fn : String} {mids imps : List String}

theorem state_second_initial_error {s : StateNode}
    (h1 : transientCheck fn s = none)
    (h2 : dupCheck StateNode.id (stateDupErr fn) s.states = none)
    (h3 : dupCheck (fun t => normalizeEventName t.event) (transitionDupErr fn)
      s.transitions = none)
    (h4 : dupCheck (fun p => protocolEventKey p.eventName) (protocolDupErr fn)
      s.eventProtocols = none)
    (h5 : resolveCheck ctx.resolveOk fn s.transitions = none)
    (h6 : 1 < (s.states.filter fun c => c.initial).length) :
    ∃ c, (s.states.filter fun c => c.initial).get? 1 = some c ∧
      analyzeStateNode ctx fn mids imps s
        = .error (.sem (stateInitialErr fn s c)) := by
  obtain ⟨c, hget, hcheck⟩ :=
    @initialCheck_eq_some (stateInitialErr fn s) s.states h6
  refine ⟨c, hget, ?_⟩
  have hpre : stateNodePrecheck ctx.resolveOk fn s
      = some (stateInitialErr fn s c) := by
    simp only [stateNodePrecheck, h1, h2, h3, h4, h5, hcheck, orElse_none_left]
  exact analyzeStateNode_precheck_some hpre

theorem machine_second_initial_error {m : MachineNode}
    (h2 : dupCheck StateNode.id (stateDupErr fn) m.states = none)
    (h3 : dupCheck (fun t => normalizeEventName t.event) (transitionDupErr fn)
      m.transitions = none)
    (h4 : dupCheck (fun p => protocolEventKey p.eventName) (protocolDupErr fn)
      m.eventProtocols = none)
    (h5 : resolveCheck ctx.resolveOk fn m.transitions = none)
    (h6 : 1 < (m.states.filter fun c => c.initial).length) :
    ∃ c, (m.states.filter fun c => c.initial).get? 1 = some c ∧
      analyzeMachineNode ctx fn mids imps m
        = .error (.sem (machineInitialErr fn m c)) := by
  obtain ⟨c, hget, hcheck⟩ :=
    @initialCheck_eq_some (machineInitialErr fn m) m.states h6
  refine ⟨c, hget, ?_⟩
  have hpre : machineNodePrecheck ctx.resolveOk fn m
      = some (machineInitialErr fn m c) := by
    simp only [machineNodePrecheck, h2, h3, h4, h5, hcheck, orElse_none_left]
  exact analyzeMachineNode_precheck_some hpre

theorem state_initial_completion {s s2 : StateNode}
    (h : analyzeStateNode ctx fn mids imps s = .ok s2) (hne : s.states ≠ [])
    (h0 : ¬ s.states.any fun c => c.initial) :
    ∃ c, s2.states.head? = some c ∧ c.initial = true := by
  obtain ⟨hpre, sts2, ud2, hsts, hud, rfl⟩ := analyzeStateNode_ok_inv h
  obtain ⟨c0, rest, hsteq, hcomp⟩ := completeInitial_of_none hne h0
  rw [hcomp] at hsts
  have hfa := analyzeStateList_ok_forall hsts
  cases hfa with
  | @cons _ c2 _ rest2 hab htail =>
    refine ⟨c2, rfl, ?_⟩
    rw [analyzeStateNode_ok_initial hab, setInitial_initial]

theorem machine_initial_completion {m : MachineNode} {m2 : MachineNode}
    (h : analyzeMachineNode ctx fn mids imps m = .ok m2) (hne : m.states ≠ [])
    (h0 : ¬ m.states.any fun c => c.initial) :
    ∃ c, m2.states.head? = some c ∧ c.initial = true := by
  obtain ⟨hpre, sts2, hsts, rfl⟩ := analyzeMachineNode_ok_inv h
  obtain ⟨c0, rest, hsteq, hcomp⟩ := completeInitial_of_none hne h0
  rw [hcomp] at hsts
  have hfa := analyzeStateList_ok_forall hsts
  cases hfa with
  | @cons _ c2 _ rest2 hab htail =>
    refine ⟨c2, rfl, ?_⟩
    rw [analyzeStateNode_ok_initial hab, setInitial_initial]

theorem sizeOf_states_lt_mk (i st : String) (ini : Bool) (ln col : Nat)
    (tr : List TransitionNode) (eps : List EventProtocolNode)
    (ud : Option UseDirectiveNode) (sts : List StateNode) :
    sizeOf sts < sizeOf (StateNode.mk i st ini ln col tr eps ud sts) := by
  simp [StateNode.mk.sizeOf_spec]

theorem initOK_of_analyzeStateNode : ∀ (n : Nat) (s s2 : StateNode),
    sizeOf s ≤ n → analyzeStateNode ctx fn mids imps s = .ok s2 →
    initOK s2 = true := by
  intro n
  induction n with
  | zero =>
    intro s s2 hsz h
    cases s with
    | mk i st ini ln col tr eps ud sts =>
      have h1 := sizeOf_states_lt_mk i st ini ln col tr eps ud sts
      omega
  | succ n ih =>
    intro s s2 hsz h
    obtain ⟨hpre, sts2, ud2, hsts, hud, rfl⟩ := analyzeStateNode_ok_inv h
    have hfa := analyzeStateList_ok_forall hsts
    have hsize : ∀ a ∈ completeInitial s.states, sizeOf a ≤ n := by
      intro a ha
      have h1 : sizeOf a < sizeOf (completeInitial s.states) :=
        List.sizeOf_lt_of_mem ha
      rw [sizeOf_completeInitial] at h1
      have h2 : sizeOf s.states < sizeOf s := by
        cases s with
        | mk i st ini ln col tr eps ud sts =>
          exact sizeOf_states_lt_mk i st ini ln col tr eps ud sts
      omega
    have hchild : ∀ b ∈ sts2, initOK b = true := by
      intro b hb
      obtain ⟨a, ha, hab⟩ := forall₂_mem_right hfa hb
      exact ih a b (hsize a ha) hab
    have hlist := initOKList_of_forall hchild
    have hcnt : countInitial sts2 = countInitial (completeInitial s.states) :=
      countInitial_of_forall₂ hfa
    have hle : countInitial s.states ≤ 1 := by
      have h6 := (stateNodePrecheck_none_iff.1 hpre).2.2.2.2.2
      have h7 := initialCheck_eq_none h6
      unfold countInitial
      omega
    simp only [initOK, Bool.and_eq_true, Bool.or_eq_true]
    refine ⟨?_, hlist⟩
    cases hne : s.states with
    | nil =>
      left
      rw [hne, completeInitial_nil] at hfa
      cases hfa
      rfl
    | cons c0 rest =>
      right
      have hne2 : s.states ≠ [] := by rw [hne]; simp
      have h1 := countInitial_completeInitial hle hne2
      rw [hcnt, h1]
      rfl

theorem machineInit_of_analyzeMachineNode {m m2 : MachineNode}
    (h : analyzeMachineNode ctx fn mids imps m = .ok m2) :
    (m2.states ≠ [] → countInitial m2.states = 1) ∧
    initOKList m2.states = true := by
  obtain ⟨hpre, sts2, hsts, rfl⟩ := analyzeMachineNode_ok_inv h
  have hfa := analyzeStateList_ok_forall hsts
  have hchild : ∀ b ∈ sts2, initOK b = true := by
    intro b hb
    obtain ⟨a, ha, hab⟩ := forall₂_mem_right hfa hb
    exact initOK_of_analyzeStateNode (sizeOf a) a b (le_refl _) hab
  have hlist := initOKList_of_forall hchild
  have hcnt : countInitial sts2 = countInitial (completeInitial m.states) :=
    countInitial_of_forall₂ hfa
  have hle : countInitial m.states ≤ 1 := by
    have h6 := (machineNodePrecheck_none_iff.1 hpre).2.2.2.2
    have h7 := initialCheck_eq_none h6
    unfold countInitial
    omega
  refine ⟨?_, hlist⟩
  intro hne
  have hne0 : m.states ≠ [] := by
    intro hnil
    rw [hnil, completeInitial_nil] at hfa
    cases hfa
    exact hne rfl
  rw [hcnt]
  exact countInitial_completeInitial hle hne0

end InitialRule

/-- C4: at every machine and state node, more than one initial child raises
the `SemanticError` located at the SECOND initial child (subject to the
checks that precede it in the source passing); when children exist and none
is initial the first child of the analyzed node is initial; hence after a
successful analysis every machine with children has exactly one initial
child and every state subtree satisfies `initOK` (each non-leaf node has
exactly one initial child). -/
theorem C4_initial_child_rule :
    (∀ (ctx : AnalyzerContext) (fn : String) (mids imps : List String)
      (s : StateNode),
      transientCheck fn s = none →
      dupCheck StateNode.id (stateDupErr fn) s.states = none →
      dupCheck (fun t => normalizeEventName t.event) (transitionDupErr fn)
        s.transitions = none →
      dupCheck (fun p => protocolEventKey p.eventName) (protocolDupErr fn)
        s.eventProtocols = none →
      resolveCheck ctx.resolveOk fn s.transitions = none →
      1 < (s.states.filter fun c => c.initial).length →
      ∃ c, (s.states.filter fun c => c.initial).get? 1 = some c ∧
        analyzeStateNode ctx fn mids imps s
          = .error (.sem (stateInitialErr fn s c))) ∧
    (∀ (ctx : AnalyzerContext) (fn : String) (mids imps : List String)
      (m : MachineNode),
      dupCheck StateNode.id (stateDupErr fn) m.states = none →
      dupCheck (fun t => normalizeEventName t.event) (transitionDupErr fn)
        m.transitions = none →
      dupCheck (fun p => protocolEventKey p.eventName) (protocolDupErr fn)
        m.eventProtocols = none →
      resolveCheck ctx.resolveOk fn m.transitions = none →
      1 < (m.states.filter fun c => c.initial).length →
      ∃ c, (m.states.filter fun c => c.initial).get? 1 = some c ∧
        analyzeMachineNode ctx fn mids imps m
          = .error (.sem (machineInitialErr fn m c))) ∧
    (∀ (ctx : AnalyzerContext) (fn : String) (mids imps : List String)
      (s s2 : StateNode),
      analyzeStateNode ctx fn mids imps s = .ok s2 → s.states ≠ [] →
      ¬ s.states.any (fun c => c.initial) →
      ∃ c, s2.states.head? = some c ∧ c.initial = true) ∧
    (∀ (ctx : AnalyzerContext) (fn : String) (mids imps : List String)
      (m m2 : MachineNode),
      analyzeMachineNode ctx fn mids imps m = .ok m2 → m.states ≠ [] →
      ¬ m.states.any (fun c => c.initial) →
      ∃ c, m2.states.head? = some c ∧ c.initial = true) ∧
    (∀ (ctx : AnalyzerContext) (fn : String) (mids imps : List String)
      (s s2 : StateNode),
      analyzeStateNode ctx fn mids imps s = .ok s2 → initOK s2 = true) ∧
    (∀ (ctx : AnalyzerContext) (fn : String) (mids imps : List String)
      (m m2 : MachineNode),
      analyzeMachineNode ctx fn mids imps m = .ok m2 →
      (m2.states ≠ [] → countInitial m2.states = 1) ∧
      initOKList m2.states = true) := by
  refine ⟨?_, ?_, ?_, ?_, ?_, ?_⟩
  · intro ctx fn mids imps s h1 h2 h3 h4 h5 h6
    exact state_second_initial_error h1 h2 h3 h4 h5 h6
  · intro ctx fn mids imps m h2 h3 h4 h5 h6
    exact machine_second_initial_error h2 h3 h4 h5 h6
  · intro ctx fn mids imps s s2 h hne h0
    exact state_initial_completion h hne h0
  · intro ctx fn mids imps m m2 h hne h0
    exact machine_initial_completion h hne h0
  · intro ctx fn mids imps s s2 h
    exact initOK_of_analyzeStateNode (sizeOf s) s s2 (le_refl _) h
  · intro ctx fn mids imps m m2 h
    exact machineInit_of_analyzeMachineNode h

end WireState
